import Mathlib

/-!
Verification of the json-codemod core: a shallow embedding of the
tokenizer (`src/Tokenizer.js`), the CST builder (`src/CSTBuilder.js`),
the path resolver, and the patch functions (`src/function/replace.js`,
`src/function/insert.js`, `src/function/batch.js`), together with
theorems settling the specification's claims about them.

Source text is modelled as `List Char`; byte offsets are `Nat`;
JavaScript exceptions are modelled with `Except String`; JavaScript
`undefined` fields are modelled with `Option`.  Loops that the source
runs with a mutable cursor become fuelled or well-founded recursion on
the cursor.
-/

namespace JsonCST

/-- The character list of a string literal (used to write concrete inputs). -/
def chars (s : String) : List Char := s.data

/-- `text[i]` in JavaScript: `undefined` out of range becomes `none`. -/
def charAt (t : List Char) (i : Nat) : Option Char := t.get? i

/-- `text.slice(a, b)` in JavaScript (clamped at the text length). -/
def sliceTxt (t : List Char) (a b : Nat) : List Char := (t.take b).drop a

/-- A token, `{ type, start, end }` in `Tokenizer.js`.  The `end` field is
renamed `stop` (`end` is a Lean keyword); `type` is renamed `kind`. -/
structure Tok where
  kind : String
  start : Nat
  stop : Nat
deriving DecidableEq

/-- `Tokenizer.isWhitespace`. -/
def isWhitespace (c : Char) : Bool :=
  c = ' ' || c = '\n' || c = '\r' || c = '\t'

/-- `Tokenizer.isNumberStart`. -/
def isNumberStart (c : Char) : Bool :=
  c = '-' || ('0' ≤ c && c ≤ '9')

/-- `Tokenizer.isAlpha`. -/
def isAlpha (c : Char) : Bool :=
  ('a' ≤ c && c ≤ 'z') || ('A' ≤ c && c ≤ 'Z')

/-- `Tokenizer.isDigit`. -/
def isDigit (c : Char) : Bool :=
  '0' ≤ c && c ≤ '9'

/-- Length of the maximal prefix of `l` whose characters satisfy `f`
(the step count of a `while (pos < len && f(text[pos])) pos++` loop). -/
def scanWhile (f : Char → Bool) : List Char → Nat
  | [] => 0
  | c :: rest => if f c then scanWhile f rest + 1 else 0

/-- The scan loop of `Tokenizer.readWhitespace`: final cursor position. -/
def wsRun (t : List Char) (p : Nat) : Nat :=
  p + scanWhile isWhitespace (t.drop p)

/-- Steps taken by the scan loop of `Tokenizer.readString` on the rest of
the text after the opening quote: a backslash skips the next character
unconditionally (`pos += 2`, even past the end of the text); an unescaped
quote closes the string. -/
def strScan : List Char → Nat
  | [] => 0
  | c :: rest =>
    if c = '\\' then
      match rest with
      | [] => 2
      | _ :: rest2 => strScan rest2 + 2
    else if c = '"' then 1
    else strScan rest + 1

/-- Final cursor of `Tokenizer.readString`'s loop started at position `p`
(just after the opening quote). -/
def strEnd (t : List Char) (p : Nat) : Nat :=
  p + strScan (t.drop p)

/-- A digit run (the repeated digit loops of `Tokenizer.readNumber`). -/
def digitRun (t : List Char) (p : Nat) : Nat :=
  p + scanWhile isDigit (t.drop p)

/-- The letter run of `Tokenizer.readKeyword`. -/
def alphaRun (t : List Char) (p : Nat) : Nat :=
  p + scanWhile isAlpha (t.drop p)

/-- The line-comment scan of `Tokenizer.readPunctuationOrComment`:
stops before the next newline or at the end of input. -/
def lineEnd (t : List Char) (p : Nat) : Nat :=
  p + scanWhile (fun c => !(c == '\n')) (t.drop p)

/-- Steps taken by the block-comment scan of
`Tokenizer.readPunctuationOrComment` (`while (pos < len &&
!(text[pos] === '*' && text[pos+1] === '/')) pos++`). -/
def blockScan : List Char → Nat
  | [] => 0
  | c :: rest => if c = '*' ∧ rest.head? = some '/' then 0 else blockScan rest + 1

/-- The cursor where the block-comment loop stops (at the `*` of `*/`, or
at the end of input when the comment is unterminated).  The source then
adds 2 for `*/`. -/
def blockStop (t : List Char) (p : Nat) : Nat :=
  p + blockScan (t.drop p)

/-- The cursor advance of `Tokenizer.readNumber` from position `p`:
optional `-`, digit run, optional `.` plus digit run, optional exponent. -/
def numEnd (t : List Char) (p : Nat) : Nat :=
  let p1 := if charAt t p = some '-' then p + 1 else p
  let p2 := digitRun t p1
  let p3 := if charAt t p2 = some '.' then digitRun t (p2 + 1) else p2
  if charAt t p3 = some 'e' ∨ charAt t p3 = some 'E' then
    let q := if charAt t (p3 + 1) = some '+' ∨ charAt t (p3 + 1) = some '-'
      then p3 + 2 else p3 + 1
    digitRun t q
  else p3

/-- The punctuation map of `Tokenizer.readPunctuationOrComment`. -/
def punctKind (c : Char) : Option String :=
  if c = '{' then some "braceL"
  else if c = '}' then some "braceR"
  else if c = '[' then some "bracketL"
  else if c = ']' then some "bracketR"
  else if c = ':' then some "colon"
  else if c = ',' then some "comma"
  else none

/-- One iteration of `Tokenizer.tokenize`: dispatch on the character at
the cursor, producing a token and the next cursor position, or a lex
error.  `c` is the character at position `p`. -/
def nextToken (t : List Char) (p : Nat) (c : Char) : Except String (Tok × Nat) :=
  if isWhitespace c then
    let q := wsRun t p
    .ok (⟨"whitespace", p, q⟩, q)
  else if c = '"' then
    let q := strEnd t (p + 1)
    .ok (⟨"string", p, q⟩, q)
  else if isNumberStart c then
    let q := numEnd t p
    .ok (⟨"number", p, q⟩, q)
  else if isAlpha c then
    let q := alphaRun t p
    let word := sliceTxt t p q
    if word = chars "true" ∨ word = chars "false" then .ok (⟨"boolean", p, q⟩, q)
    else if word = chars "null" then .ok (⟨"null", p, q⟩, q)
    else .error ("Unexpected identifier: " ++ String.mk word)
  else if c = '/' ∧ charAt t (p + 1) = some '/' then
    let q := lineEnd t (p + 2)
    .ok (⟨"comment", p, q⟩, q)
  else if c = '/' ∧ charAt t (p + 1) = some '*' then
    let q := blockStop t (p + 2) + 2
    .ok (⟨"comment", p, q⟩, q)
  else
    match punctKind c with
    | some k => .ok (⟨k, p, p + 1⟩, p + 1)
    | none => .error ("Unexpected character: " ++ String.mk [c] ++ " at " ++ toString p)

/-- The `while (this.pos < this.text.length)` loop of `Tokenizer.tokenize`,
fuelled.  Every reader advances the cursor, so fuel `t.length + 1` never
runs out (see `tokenize`). -/
def tokLoop (t : List Char) : Nat → Nat → Except String (List Tok)
  | 0, _ => .error "tokenizer fuel exhausted"
  | fuel + 1, p =>
    if h : p < t.length then
      match nextToken t p t[p] with
      | .error e => .error e
      | .ok (tok, q) => (tokLoop t fuel q).map (tok :: ·)
    else .ok []

/-- `new Tokenizer(text).tokenize()`. -/
def tokenize (t : List Char) : Except String (List Tok) :=
  tokLoop t (t.length + 1) 0

/-- The produced tokens tile the text from position `p` onward: each token
starts where the previous one stopped, every token is nonempty, and every
token starts strictly inside the text. -/
def tokensOK (t : List Char) : Nat → List Tok → Prop
  | _, [] => True
  | p, tk :: rest =>
    tk.start = p ∧ p < t.length ∧ p < tk.stop ∧ tokensOK t tk.stop rest

/-- The cursor position after the last token (or `p` if there is none). -/
def endPosOf : Nat → List Tok → Nat
  | p, [] => p
  | _, tk :: rest => endPosOf tk.stop rest

/-! ### CST builder (`CSTBuilder.js`) -/

/-- A CST node as built by `CSTBuilder`: `{type, start, end, ...}` with
`properties` (key/value node pairs) on objects and `elements` on arrays.
The `end` field is again called `stop`. -/
inductive Node where
  | Object (start stop : Nat) (properties : List (Node × Node))
  | Array (start stop : Nat) (elements : List Node)
  | String (start stop : Nat)
  | Number (start stop : Nat)
  | Boolean (start stop : Nat)
  | Null (start stop : Nat)

def Node.start : Node → Nat
  | .Object s _ _ => s
  | .Array s _ _ => s
  | .String s _ => s
  | .Number s _ => s
  | .Boolean s _ => s
  | .Null s _ => s

def Node.stop : Node → Nat
  | .Object _ e _ => e
  | .Array _ e _ => e
  | .String _ e => e
  | .Number _ e => e
  | .Boolean _ e => e
  | .Null _ e => e

def Node.properties : Node → List (Node × Node)
  | .Object _ _ props => props
  | _ => []

def Node.elements : Node → List Node
  | .Array _ _ elems => elems
  | _ => []

/-- Number of leading trivia tokens (`CSTBuilder.skipTrivia`'s step count). -/
def triviaCount : List Tok → Nat
  | [] => 0
  | tk :: rest =>
    if tk.kind = "whitespace" ∨ tk.kind = "comment" then triviaCount rest + 1 else 0

/-- `CSTBuilder.skipTrivia`: the token index after skipping whitespace and
comment tokens. -/
def skipTrivia (toks : List Tok) (p : Nat) : Nat :=
  p + triviaCount (toks.drop p)

/-- `CSTBuilder.consume`: demand a token of kind `ty` at index `p`. -/
def consume (toks : List Tok) (p : Nat) (ty : String) : Except String (Tok × Nat) :=
  match toks.get? p with
  | some tk =>
    if tk.kind = ty then .ok (tk, p + 1)
    else .error ("Expected " ++ ty ++ ", got " ++ tk.kind)
  | none => .error ("Expected " ++ ty ++ ", got undefined")

/-- Parser request kind: `parseValue`, the property loop of
`parseObject`, or the element loop of `parseArray`.  The three mutually
recursive routines of `CSTBuilder` are merged into the single fuelled
function `parseF` below (Lean-side encoding only; the logic of each
routine is transcribed unchanged). -/
inductive PTag where
  | val
  | objMembers
  | arrElems

/-- Result of a parser request. -/
inductive POut where
  | node (n : Node)
  | props (l : List (Node × Node))
  | elems (l : List Node)

/-- After a parsed member, the loops of `parseObject`/`parseArray` skip
trivia and then optionally consume a single separating comma followed by
trivia; this is the cursor they continue from (`p4` is the position
after the member's trailing trivia skip). -/
def afterMember (toks : List Tok) (p4 : Nat) : Nat :=
  match toks.get? p4 with
  | some tk2 => if tk2.kind = "comma" then skipTrivia toks (p4 + 1) else p4
  | none => p4

/-- `CSTBuilder.parseValue` / `parseObject` / `parseArray` and the two
member loops, as one fuelled function.  `parseObject` and `parseArray`
are inlined at their single call sites in the `braceL`/`bracketL`
branches; their `consume` of the opening bracket is the (already
checked) token at the current position.  The member loops stop at the
closing bracket or the end of the tokens; the subsequent `consume` of
the closer reports the source's error otherwise. -/
def parseF : Nat → PTag → List Tok → Nat → Except String (POut × Nat)
  | 0, _, _, _ => .error "parser fuel exhausted"
  | fuel + 1, PTag.val, toks, pos =>
    let p := skipTrivia toks pos
    match toks.get? p with
    | none => .error "Unexpected end of input"
    | some tok =>
      if tok.kind = "braceL" then
        match parseF fuel PTag.objMembers toks (skipTrivia toks (p + 1)) with
        | .error e => .error e
        | .ok (POut.props props, p2) =>
          (match consume toks p2 "braceR" with
           | .error e => .error e
           | .ok (endTok, p3) =>
             .ok (POut.node (Node.Object tok.start endTok.stop props), p3))
        | .ok (_, _) => .error "parser internal error"
      else if tok.kind = "bracketL" then
        match parseF fuel PTag.arrElems toks (skipTrivia toks (p + 1)) with
        | .error e => .error e
        | .ok (POut.elems elems, p2) =>
          (match consume toks p2 "bracketR" with
           | .error e => .error e
           | .ok (endTok, p3) =>
             .ok (POut.node (Node.Array tok.start endTok.stop elems), p3))
        | .ok (_, _) => .error "parser internal error"
      else if tok.kind = "string" then .ok (POut.node (Node.String tok.start tok.stop), p + 1)
      else if tok.kind = "number" then .ok (POut.node (Node.Number tok.start tok.stop), p + 1)
      else if tok.kind = "boolean" then .ok (POut.node (Node.Boolean tok.start tok.stop), p + 1)
      else if tok.kind = "null" then .ok (POut.node (Node.Null tok.start tok.stop), p + 1)
      else .error ("Unexpected token: " ++ tok.kind)
  | fuel + 1, PTag.objMembers, toks, pos =>
    match toks.get? pos with
    | none => .ok (POut.props [], pos)
    | some tok =>
      if tok.kind = "braceR" then .ok (POut.props [], pos)
      else
        match consume toks pos "string" with
        | .error e => .error e
        | .ok (keyTok, p1) =>
          match consume toks (skipTrivia toks p1) "colon" with
          | .error e => .error e
          | .ok (_, p2) =>
            match parseF fuel PTag.val toks (skipTrivia toks p2) with
            | .error e => .error e
            | .ok (POut.node valueNode, p3) =>
              (match parseF fuel PTag.objMembers toks
                  (afterMember toks (skipTrivia toks p3)) with
               | .error e => .error e
               | .ok (POut.props props, p6) =>
                 .ok (POut.props
                   ((Node.String keyTok.start keyTok.stop, valueNode) :: props), p6)
               | .ok (_, _) => .error "parser internal error")
            | .ok (_, _) => .error "parser internal error"
  | fuel + 1, PTag.arrElems, toks, pos =>
    match toks.get? pos with
    | none => .ok (POut.elems [], pos)
    | some tok =>
      if tok.kind = "bracketR" then .ok (POut.elems [], pos)
      else
        match parseF fuel PTag.val toks pos with
        | .error e => .error e
        | .ok (POut.node valueNode, p3) =>
          (match parseF fuel PTag.arrElems toks
              (afterMember toks (skipTrivia toks p3)) with
           | .error e => .error e
           | .ok (POut.elems elems, p6) => .ok (POut.elems (valueNode :: elems), p6)
           | .ok (_, _) => .error "parser internal error")
        | .ok (_, _) => .error "parser internal error"

/-- `new CSTBuilder(tokens).build()`: skip trivia, parse one value
(note: trailing tokens after the value are ignored by the source).  The
fuel is ample: every recursive call of `parseF` either consumes a token
or parses one member. -/
def buildCST (toks : List Tok) : Except String Node :=
  match parseF (2 * toks.length + 2) PTag.val toks 0 with
  | .ok (POut.node n, _) => .ok n
  | .ok (_, _) => .error "parser internal error"
  | .error e => .error e

/-! ### Path resolver (`PathResolver.js`, transcribed in `index.d.ts`) -/

/-- Characters the JavaScript regex `.` does **not** match
(line terminators), relevant to `unescapeString`. -/
def isLineTerm (c : Char) : Bool :=
  c = '\n' || c = '\r' || c = '\u2028' || c = '\u2029'

/-- The `switch` of `unescapeString`'s replacement callback: the eight JSON
escapes decode to their literal characters; any other escaped character is
returned as itself (the backslash of the pair is dropped by the
replacement). -/
def decodeEsc (c : Char) : Char :=
  if c = '"' then '"'
  else if c = '\\' then '\\'
  else if c = '/' then '/'
  else if c = 'b' then '\x08'
  else if c = 'f' then '\x0C'
  else if c = 'n' then '\n'
  else if c = 'r' then '\r'
  else if c = 't' then '\t'
  else c

/-- `unescapeString(str)`: `str.replace(/\\(.)/g, (_, ch) => ...)`.  A
backslash followed by a line terminator is not matched by the regex (`.`
excludes line terminators) and stays in place, as does a trailing lone
backslash; every other backslash-character pair is replaced by
`decodeEsc` of the escaped character. -/
def unescapeString : List Char → List Char
  | [] => []
  | '\\' :: c :: rest =>
    if isLineTerm c then '\\' :: unescapeString (c :: rest)
    else decodeEsc c :: unescapeString rest
  | c :: rest => c :: unescapeString rest

/-- `extractString(stringNode, sourceText)`: the text between the quotes,
unescaped. -/
def extractString (stringNode : Node) (sourceText : List Char) : List Char :=
  unescapeString (sliceTxt sourceText (stringNode.start + 1) (stringNode.stop - 1))

/-- A path step: a string key, a numeric index, or the result of a
non-numeric `Number(...)` conversion (`NaN`, which never matches any
lookup). -/
inductive Step where
  | key (k : List Char)
  | idx (i : Nat)
  | nan
deriving DecidableEq

/-- The character class `[a-zA-Z0-9_$]` of `parseDotPath`. -/
def identChar (c : Char) : Bool :=
  ('a' ≤ c && c ≤ 'z') || ('A' ≤ c && c ≤ 'Z') || ('0' ≤ c && c ≤ '9') ||
    c = '_' || c = '$'

def digitsToNat (l : List Char) : Nat :=
  l.foldl (fun acc c => acc * 10 + (c.toNat - 48)) 0

/-- `StrWhiteSpaceChar` of ECMAScript `ToNumber` on strings: WhiteSpace
(TAB, VT, FF, ZWNBSP, and Unicode category Zs) or a LineTerminator. -/
def isStrWS (c : Char) : Bool :=
  c = '\x09' || c = '\x0a' || c = '\x0b' || c = '\x0c' || c = '\x0d' ||
  c = ' ' || c = '\xa0' || c = '\u1680' ||
  ('\u2000' ≤ c && c ≤ '\u200a') || c = '\u2028' || c = '\u2029' ||
  c = '\u202f' || c = '\u205f' || c = '\u3000' || c = '\ufeff'

def trimWS (l : List Char) : List Char :=
  ((l.dropWhile isStrWS).reverse.dropWhile isStrWS).reverse

def jsHexVal (c : Char) : Option Nat :=
  if isDigit c then some (c.toNat - 48)
  else if 'a' ≤ c && c ≤ 'f' then some (c.toNat - 87)
  else if 'A' ≤ c && c ≤ 'F' then some (c.toNat - 55)
  else none

def radixDigitOk (b : Nat) (c : Char) : Bool :=
  match jsHexVal c with
  | some v => v < b
  | none => false

def radixToNat (b : Nat) (digs : List Char) : Nat :=
  digs.foldl (fun a c => b * a + ((jsHexVal c).getD 0)) 0

/-- The `ExponentPart` tail after `e`/`E`: an optionally signed
nonempty digit string. -/
def expVal : List Char → Option Int
  | [] => none
  | '+' :: ds => if ds ≠ [] ∧ ds.all isDigit then some (Int.ofNat (digitsToNat ds)) else none
  | '-' :: ds => if ds ≠ [] ∧ ds.all isDigit then some (-(Int.ofNat (digitsToNat ds))) else none
  | ds => if ds.all isDigit then some (Int.ofNat (digitsToNat ds)) else none

/-- `StrUnsignedDecimalLiteral` (without `Infinity`): given the leading
digit run and the rest of the string, the exact value as
`(N, f, e)` — integer-and-fraction digits as a number, fraction length,
exponent — so the literal denotes `N * 10 ^ (e - f)`. `none` when the
string is not a complete literal. -/
def parseDecTail (intDigits rest : List Char) : Option (Nat × Nat × Int) :=
  match rest with
  | [] => if intDigits = [] then none else some (digitsToNat intDigits, 0, 0)
  | '.' :: r2 =>
    let frac := r2.takeWhile isDigit
    let r3 := r2.dropWhile isDigit
    if intDigits = [] ∧ frac = [] then none
    else
      match r3 with
      | [] => some (digitsToNat (intDigits ++ frac), frac.length, 0)
      | 'e' :: r4 =>
        (expVal r4).map (fun ex => (digitsToNat (intDigits ++ frac), frac.length, ex))
      | 'E' :: r4 =>
        (expVal r4).map (fun ex => (digitsToNat (intDigits ++ frac), frac.length, ex))
      | _ => none
  | 'e' :: r4 =>
    if intDigits = [] then none
    else (expVal r4).map (fun ex => (digitsToNat intDigits, 0, ex))
  | 'E' :: r4 =>
    if intDigits = [] then none
    else (expVal r4).map (fun ex => (digitsToNat intDigits, 0, ex))
  | _ => none

def decNumValue (l : List Char) : Option (Nat × Nat × Int) :=
  parseDecTail (l.takeWhile isDigit) (l.dropWhile isDigit)

/-- `floor (log2 k)` by structural recursion on a fuel argument, so
that it evaluates by kernel reduction (`Nat.log2` is defined by
well-founded recursion and does not). -/
def natLog2F : Nat → Nat → Nat
  | 0, _ => 0
  | fuel + 1, n => if 2 ≤ n then natLog2F fuel (n / 2) + 1 else 0

def natLog2 (n : Nat) : Nat := natLog2F n n

/-- Whether the exact value `±N * 10 ^ E10` rounds (binary64,
round-half-even) to a double that names an array element: an integer
`k` with `0 ≤ k < 2 ^ 32` (`-0` names element 0; array lengths are
below `2 ^ 32`, so a larger integral double never matches).  For
`1 ≤ k < 2 ^ 32` the rounding interval of `k` is
`[k - lowslack * 2 ^ (E - 54), k + 2 ^ (E - 53)]` with `E = log2 k` and
`lowslack` halved at a power of two, boundaries inclusive because `k`
scaled to mantissa has trailing zero bits (even) while its neighbours
are odd; a value rounds to `±0` exactly when its magnitude is at most
`2 ^ (-1075)`, half the least subnormal. -/
def decToIdx (neg : Bool) (N : Nat) (E10 : Int) : Step :=
  if N = 0 then Step.idx 0
  else if neg then
    match E10 with
    | .ofNat _ => Step.nan
    | .negSucc m0 =>
      if N * 2 ^ 1075 ≤ 10 ^ (m0 + 1) then Step.idx 0 else Step.nan
  else
    match E10 with
    | .ofNat p => if N * 10 ^ p < 2 ^ 32 then Step.idx (N * 10 ^ p) else Step.nan
    | .negSucc m0 =>
      let m := m0 + 1
      let k0 := (2 * N + 10 ^ m) / (2 * 10 ^ m)
      if k0 = 0 then
        if N * 2 ^ 1075 ≤ 10 ^ m then Step.idx 0 else Step.nan
      else if k0 < 2 ^ 32 then
        let E := natLog2 k0
        let A := N * 2 ^ 54
        let C := k0 * 2 ^ 54 * 10 ^ m
        let lowslack := if k0 = 2 ^ E then 2 ^ E else 2 ^ (E + 1)
        if C ≤ A + lowslack * 10 ^ m ∧ A ≤ C + 2 ^ (E + 1) * 10 ^ m then Step.idx k0
        else Step.nan
      else Step.nan

def nonDecIdx (b : Nat) (ds : List Char) : Step :=
  if ds ≠ [] ∧ ds.all (radixDigitOk b) then
    if radixToNat b ds < 2 ^ 32 then Step.idx (radixToNat b ds) else Step.nan
  else Step.nan

def signedDec (neg : Bool) (ds : List Char) : Step :=
  if ds = chars "Infinity" then Step.nan
  else
    match decNumValue ds with
    | some (N, f, e) => decToIdx neg N (e - (f : Int))
    | none => Step.nan

def numberStepCore : List Char → Step
  | [] => Step.idx 0
  | '0' :: 'x' :: ds => nonDecIdx 16 ds
  | '0' :: 'X' :: ds => nonDecIdx 16 ds
  | '0' :: 'o' :: ds => nonDecIdx 8 ds
  | '0' :: 'O' :: ds => nonDecIdx 8 ds
  | '0' :: 'b' :: ds => nonDecIdx 2 ds
  | '0' :: 'B' :: ds => nonDecIdx 2 ds
  | '+' :: ds => signedDec false ds
  | '-' :: ds => signedDec true ds
  | ds => signedDec false ds

/-- `Number(num)` for the text collected by `parseDotPath`'s `[...]`
branch, followed through the array lookup `elements[index]`:
ECMAScript ToNumber on strings (whitespace/line-terminator trim, empty
string is 0, optionally signed decimal with fraction and exponent,
`0x`/`0o`/`0b` literals, `Infinity`), rounded to binary64; `Step.idx k`
exactly when the resulting double is an integer `k` with
`0 ≤ k < 2 ^ 32` (including `-0`), the doubles whose property key can
name an element of an array; every other double (`NaN`, infinities,
negative, non-integral, or at least `2 ^ 32`) matches no element and
is `Step.nan`. -/
def numberStep (num : List Char) : Step :=
  numberStepCore (trimWS num)

/-- `parseDotPath`, fuelled.  `none` models divergence: on a character
that is neither `.` nor `[` nor an identifier character, the source's
`while` loop pushes an empty name without advancing `i` and never
terminates. -/
def parseDotPathF : Nat → List Char → Option (List Step)
  | 0, _ => none
  | _, [] => some []
  | fuel + 1, '.' :: rest => parseDotPathF fuel rest
  | fuel + 1, '[' :: rest =>
    let num := rest.takeWhile (fun c => !(c == ']'))
    let rest2 := (rest.dropWhile (fun c => !(c == ']'))).drop 1
    (parseDotPathF fuel rest2).map (fun steps => numberStep num :: steps)
  | fuel + 1, c :: rest =>
    if identChar c then
      let name := (c :: rest).takeWhile identChar
      let rest2 := (c :: rest).dropWhile identChar
      (parseDotPathF fuel rest2).map (fun steps => Step.key name :: steps)
    else none

def parseDotPath (path : List Char) : Option (List Step) :=
  parseDotPathF (path.length + 1) path

/-- JavaScript `String.prototype.split("/")` (`"".split("/")` is `[""]`). -/
def splitOnSlash : List Char → List (List Char)
  | [] => [[]]
  | '/' :: rest => [] :: splitOnSlash rest
  | c :: rest =>
    match splitOnSlash rest with
    | seg :: segs => (c :: seg) :: segs
    | [] => [[c]]

/-- `segment.replace(/~1/g, "/")`. -/
def replTilde1 : List Char → List Char
  | '~' :: '1' :: rest => '/' :: replTilde1 rest
  | c :: rest => c :: replTilde1 rest
  | [] => []

/-- `segment.replace(/~0/g, "~")`. -/
def replTilde0 : List Char → List Char
  | '~' :: '0' :: rest => '~' :: replTilde0 rest
  | c :: rest => c :: replTilde0 rest
  | [] => []

/-- One JSON-Pointer segment: `~1`/`~0` unescaping, then `/^\d+$/`
segments become numeric indices. -/
def pointerStep (seg : List Char) : Step :=
  let s := replTilde0 (replTilde1 seg)
  if s ≠ [] ∧ s.all isDigit then Step.idx (digitsToNat s) else Step.key s

/-- `parseJSONPointer(pointer)`. -/
def parseJSONPointer (pointer : List Char) : Except String (List Step) :=
  match pointer with
  | [] => .ok []
  | '/' :: rest => .ok ((splitOnSlash rest).map pointerStep)
  | _ => .error "Invalid JSON Pointer"

/-- `parsePath(path)`: JSON Pointer when the path starts with `/`,
dot-notation otherwise.  `none` models the divergence of `parseDotPath`;
the pointer branch never reaches `parseJSONPointer`'s error. -/
def parsePath (path : List Char) : Option (List Step) :=
  match path with
  | '/' :: _ => (parseJSONPointer path).toOption
  | _ => parseDotPath path

/-- `resolveObjectProperty(objectNode, key, sourceText)`: scan properties
in order, comparing the step key against each property's unescaped key
text; a non-string step never matches (`typeof key !== "string"`). -/
def resolveObjectProperty (props : List (Node × Node)) (st : Step)
    (sourceText : List Char) : Option Node :=
  match st with
  | Step.key k =>
    match props with
    | [] => none
    | pr :: rest =>
      if extractString pr.1 sourceText = k then some pr.2
      else resolveObjectProperty rest st sourceText
  | _ => none

/-- `resolveArrayElement(arrayNode, index)`: numeric steps index the
elements (`undefined` out of range becomes `none`); non-numeric steps
never match. -/
def resolveArrayElement (elems : List Node) (st : Step) : Option Node :=
  match st with
  | Step.idx i => elems.get? i
  | _ => none

/-- The walk loop of `resolvePath`. -/
def resolveSteps : List Step → Node → List Char → Option Node
  | [], node, _ => some node
  | st :: rest, node, sourceText =>
    match node with
    | Node.Object _ _ props =>
      match resolveObjectProperty props st sourceText with
      | some v => resolveSteps rest v sourceText
      | none => none
    | Node.Array _ _ elems =>
      match resolveArrayElement elems st with
      | some v => resolveSteps rest v sourceText
      | none => none
    | _ => none

/-- `resolvePath(root, path, sourceText)`.  The outer `Option` is `none`
when path parsing diverges (see `parseDotPathF`); the inner `Option` is
the source's `Node | null`. -/
def resolvePath (root : Node) (path : List Char) (sourceText : List Char) :
    Option (Option Node) :=
  (parsePath path).map (fun steps => resolveSteps steps root sourceText)

/-! ### Patch engine: replace (`function/replace.js`) -/

structure RPatch where
  path : List Char
  value : List Char
deriving DecidableEq

structure IPatch where
  path : List Char
  key : Option (List Char)
  value : List Char
  position : Option Int
deriving DecidableEq

structure DPatch where
  path : List Char
deriving DecidableEq

/-- A splice: `result.slice(0, s) + v + result.slice(e)`. -/
def splice (t : List Char) (s e : Nat) (v : List Char) : List Char :=
  t.take s ++ v ++ t.drop e

/-- Resolve every patch's path (`patches.map(...)` in the source); `none`
when some path diverges. -/
def resolveAll {β : Type} (root : Node) (t : List Char) (path : β → List Char)
    (ps : List β) : Option (List (Option Node × β)) :=
  ps.mapM (fun p => (resolvePath root (path p) t).map (fun n => (n, p)))

/-- `.filter((v) => v.node)`: keep the patches whose path resolved. -/
def keptNodes {β : Type} (l : List (Option Node × β)) : List (Node × β) :=
  l.filterMap (fun x =>
    match x.1 with
    | some n => some (n, x.2)
    | none => none)

/-- `.sort((a, b) => b.node.start - a.node.start)`: stable sort by
descending node start offset. -/
def sortDescByStart {β : Type} (l : List (Node × β)) : List (Node × β) :=
  l.insertionSort (fun a b => Node.start b.1 ≤ Node.start a.1)

/-- The conflict `reduce` of `replace`: walking in descending-start order
with a running boundary seeded at `Infinity`, fail when the current
node's end exceeds the boundary.  CST nodes carry no `path` field, so the
interpolated `${node.path}` in the source's message is always the string
`undefined`. -/
def conflictCheck {β : Type} : Option Nat → List (Node × β) → Except String Unit
  | _, [] => .ok ()
  | lastEnd, (node, _) :: rest =>
    match lastEnd with
    | none => conflictCheck (some node.start) rest
    | some le =>
      if le < node.stop then .error "Patch conflict at path: undefined"
      else conflictCheck (some node.start) rest

/-- `replace(sourceText, patches)`.  The outer `Option` is `none` when a
path diverges (see `parseDotPathF`); the `Except` carries the source's
thrown errors. -/
def replace (sourceText : List Char) (patches : List RPatch) :
    Option (Except String (List Char)) :=
  match tokenize sourceText with
  | .error e => some (.error e)
  | .ok toks =>
    match buildCST toks with
    | .error e => some (.error e)
    | .ok root =>
      match resolveAll root sourceText RPatch.path patches with
      | none => none
      | some resolved =>
        let reverseNodes := sortDescByStart (keptNodes resolved)
        match conflictCheck none reverseNodes with
        | .error e => some (.error e)
        | .ok _ =>
          some (.ok (reverseNodes.foldl
            (fun acc np => splice acc np.1.start np.1.stop np.2.value) sourceText))

/-! ### Patch engine: insert (`function/insert.js`) -/

/-- The literal text `"key": value`. -/
def entryText (k v : List Char) : List Char :=
  '"' :: (k ++ ('"' :: (':' :: (' ' :: v))))

/-- `insertObjectProperty`.  Note `!patch.key` is JavaScript falsiness:
both a missing key and an empty-string key trigger the error. -/
def insertObjectProperty (sourceText : List Char) (objectNode : Node)
    (patch : IPatch) (originalSource : List Char) : Except String (List Char) :=
  match patch.key with
  | none => .error "Insert into object requires \x27key\x27 property"
  | some k =>
    if k = [] then .error "Insert into object requires \x27key\x27 property"
    else if objectNode.properties.any
        (fun pr => decide (extractString pr.1 originalSource = k)) then
      .error ("Key \"" ++ String.mk k ++ "\" already exists in object")
    else
      match objectNode.properties with
      | [] =>
        .ok (splice sourceText (objectNode.start + 1) (objectNode.start + 1)
          (entryText k patch.value))
      | pr :: rest =>
        let lastProp := (pr :: rest).getLast (List.cons_ne_nil pr rest)
        .ok (splice sourceText lastProp.2.stop lastProp.2.stop
          (chars ", " ++ entryText k patch.value))

/-- `insertArrayElement`. -/
def insertArrayElement (sourceText : List Char) (arrayNode : Node)
    (patch : IPatch) : Except String (List Char) :=
  let elems := arrayNode.elements
  let position : Int := patch.position.getD (elems.length : Int)
  if position < 0 ∨ position > (elems.length : Int) then
    .error ("Invalid position " ++ toString position ++ " for array of length " ++
      toString elems.length)
  else
    match elems with
    | [] =>
      .ok (splice sourceText (arrayNode.start + 1) (arrayNode.start + 1) patch.value)
    | e0 :: rest =>
      if position = 0 then
        .ok (splice sourceText e0.start e0.start (patch.value ++ chars ", "))
      else if (elems.length : Int) ≤ position then
        let lastElement := (e0 :: rest).getLast (List.cons_ne_nil e0 rest)
        .ok (splice sourceText lastElement.stop lastElement.stop
          (chars ", " ++ patch.value))
      else
        match elems.get? position.toNat with
        | some el => .ok (splice sourceText el.start el.start (patch.value ++ chars ", "))
        | none => .ok sourceText

/-- `insertIntoNode`: objects and arrays are spliced; any other resolved
node type is a no-op. -/
def insertIntoNode (sourceText : List Char) (node : Node) (patch : IPatch)
    (originalSource : List Char) : Except String (List Char) :=
  match node with
  | Node.Object _ _ _ => insertObjectProperty sourceText node patch originalSource
  | Node.Array _ _ _ => insertArrayElement sourceText node patch
  | _ => .ok sourceText

/-- `insert(sourceText, patches)`. -/
def insert (sourceText : List Char) (patches : List IPatch) :
    Option (Except String (List Char)) :=
  match tokenize sourceText with
  | .error e => some (.error e)
  | .ok toks =>
    match buildCST toks with
    | .error e => some (.error e)
    | .ok root =>
      match resolveAll root sourceText IPatch.path patches with
      | none => none
      | some resolved =>
        let reverseNodes := sortDescByStart (keptNodes resolved)
        some (reverseNodes.foldlM
          (fun acc np => insertIntoNode acc np.1 np.2 sourceText) sourceText)

/-! ### Patch engine: remove (modelled from the spec) -/

mutual

/-- Modelled from the spec: search a tree for the member whose value is
`target` (matched by its span), returning the member extent (key start
for an object property)
and the member's index and container size.  Fuelled (tree depth is
bounded by the source length). -/
def findMember : Nat → Node → Nat → Nat → Option (Nat × Nat × Nat × Nat)
  | 0, _, _, _ => none
  | fuel + 1, Node.Object _ _ props, tS, tE => findInProps fuel props tS tE 0 props.length
  | fuel + 1, Node.Array _ _ elems, tS, tE => findInElems fuel elems tS tE 0 elems.length
  | _ + 1, _, _, _ => none

def findInProps : Nat → List (Node × Node) → Nat → Nat → Nat → Nat →
    Option (Nat × Nat × Nat × Nat)
  | 0, _, _, _, _, _ => none
  | _ + 1, [], _, _, _, _ => none
  | fuel + 1, pr :: rest, tS, tE, i, n =>
    if pr.2.start = tS ∧ pr.2.stop = tE then some (pr.1.start, pr.2.stop, i, n)
    else
      match findMember fuel pr.2 tS tE with
      | some r => some r
      | none => findInProps fuel rest tS tE (i + 1) n

def findInElems : Nat → List Node → Nat → Nat → Nat → Nat →
    Option (Nat × Nat × Nat × Nat)
  | 0, _, _, _, _, _ => none
  | _ + 1, [], _, _, _, _ => none
  | fuel + 1, el :: rest, tS, tE, i, n =>
    if el.start = tS ∧ el.stop = tE then some (el.start, el.stop, i, n)
    else
      match findMember fuel el tS tE with
      | some r => some r
      | none => findInElems fuel rest tS tE (i + 1) n

end

/-- Modelled from the spec: the text range a deletion removes — the member
extent, widened by exactly one adjacent separator comma: the trailing
comma (with the attached whitespace run) when the member is not the last
of its container, the preceding comma when it is; a container's only
member is removed bare, leaving `{}`/`[]`. -/
def deletionSpan (root : Node) (target : Node) (t : List Char) : Nat × Nat :=
  match findMember (t.length + 2) root target.start target.stop with
  | none => (target.start, target.stop)
  | some (mS, mE, i, n) =>
    if n = 1 then (mS, mE)
    else if i + 1 < n then
      let commaIdx := mE + scanWhile (fun c => !(c == ',')) (t.drop mE)
      (mS, wsRun t (commaIdx + 1))
    else
      let back := scanWhile (fun c => !(c == ',')) (t.take mS).reverse
      if back < mS then (mS - back - 1, mE) else (mS, mE)

/-- The disjointness check the spec prescribes for delete — "the same
disjointness conflict check as replace", with the Conflict error
identifying the offending path. -/
def conflictCheckD : Option Nat → List (Node × DPatch) → Except String Unit
  | _, [] => .ok ()
  | lastEnd, (node, p) :: rest =>
    match lastEnd with
    | none => conflictCheckD (some node.start) rest
    | some le =>
      if le < node.stop then .error ("Patch conflict at path: " ++ String.mk p.path)
      else conflictCheckD (some node.start) rest

/-- Modelled from the spec: `remove(sourceText, patches)` —
`function/delete.js` is not under `src/` (only its type declaration is),
so this follows §4.4 of the spec: parse, resolve each path, silently
skip not-found, sort descending by start, apply the replace-style
disjointness conflict check, then splice out each `deletionSpan`. -/
def remove (sourceText : List Char) (patches : List DPatch) :
    Option (Except String (List Char)) :=
  match tokenize sourceText with
  | .error e => some (.error e)
  | .ok toks =>
    match buildCST toks with
    | .error e => some (.error e)
    | .ok root =>
      match resolveAll root sourceText DPatch.path patches with
      | none => none
      | some resolved =>
        let reverseNodes := sortDescByStart (keptNodes resolved)
        match conflictCheckD none reverseNodes with
        | .error e => some (.error e)
        | .ok _ =>
          some (.ok (reverseNodes.foldl
            (fun acc np =>
              let sp := deletionSpan root np.1 sourceText
              splice acc sp.1 sp.2 []) sourceText))

/-! ### Batch orchestrator (`function/batch.js`) -/

/-- A raw batch entry `{operation, path, value?, key?, position?}`;
`Option` models absent (`undefined`) fields. -/
structure BPatch where
  operation : Option String
  path : List Char
  value : Option (List Char)
  key : Option (List Char)
  position : Option Int
deriving DecidableEq

def requiredOpMsgPre : String :=
  "Operation type is required. Please specify operation: \"replace\", \"delete\", or \"insert\" for patch at path \""

def requiredOpMsg (path : List Char) : String :=
  requiredOpMsgPre ++ String.mk path ++ "\""

def replaceNeedsValueMsgPre : String :=
  "Replace operation requires \x27value\x27 property for patch at path \""

def replaceNeedsValueMsg (path : List Char) : String :=
  replaceNeedsValueMsgPre ++ String.mk path ++ "\""

def insertNeedsValueMsgPre : String :=
  "Insert operation requires \x27value\x27 property for patch at path \""

def insertNeedsValueMsg (path : List Char) : String :=
  insertNeedsValueMsgPre ++ String.mk path ++ "\""

def invalidOpMsgPre (op : String) : String :=
  "Invalid operation type \"" ++ op ++
    "\". Must be \"replace\", \"delete\", \"remove\", or \"insert\" for patch at path \""

def invalidOpMsg (op : String) (path : List Char) : String :=
  invalidOpMsgPre op ++ String.mk path ++ "\""

/-- The classification loop of `batch`: partition entries by operation,
preserving input order within each category, failing fast on a missing or
falsy (`""`) operation, an unknown operation, or a `replace`/`insert`
entry without a `value`. -/
def classify : List BPatch → Except String (List RPatch × List IPatch × List DPatch)
  | [] => .ok ([], [], [])
  | p :: rest =>
    match p.operation with
    | none => .error (requiredOpMsg p.path)
    | some op =>
      if op = "" then .error (requiredOpMsg p.path)
      else if op = "replace" then
        match p.value with
        | none => .error (replaceNeedsValueMsg p.path)
        | some v =>
          (classify rest).map (fun rid => (RPatch.mk p.path v :: rid.1, rid.2.1, rid.2.2))
      else if op = "delete" ∨ op = "remove" then
        (classify rest).map (fun rid => (rid.1, rid.2.1, DPatch.mk p.path :: rid.2.2))
      else if op = "insert" then
        match p.value with
        | none => .error (insertNeedsValueMsg p.path)
        | some v =>
          (classify rest).map (fun rid =>
            (rid.1, IPatch.mk p.path p.key v p.position :: rid.2.1, rid.2.2))
      else .error (invalidOpMsg op p.path)

/-- An entry the classification loop rejects: missing or falsy (`""`)
operation, unknown operation, or a `replace`/`insert` entry without a
`value`. -/
def isBadPatch (p : BPatch) : Bool :=
  match p.operation with
  | none => true
  | some op =>
    if op = "" then true
    else if op = "replace" then decide (p.value = none)
    else if op = "delete" ∨ op = "remove" then false
    else if op = "insert" then decide (p.value = none)
    else true

/-- The error message `classify` raises for a bad entry. -/
def badMsg (p : BPatch) : String :=
  match p.operation with
  | none => requiredOpMsg p.path
  | some op =>
    if op = "" then requiredOpMsg p.path
    else if op = "replace" then replaceNeedsValueMsg p.path
    else if op = "insert" then insertNeedsValueMsg p.path
    else invalidOpMsg op p.path

/-- Sequencing in the combined divergence/exception monad. -/
def bindOE (x : Option (Except String (List Char)))
    (f : List Char → Option (Except String (List Char))) :
    Option (Except String (List Char)) :=
  match x with
  | none => none
  | some (.error e) => some (.error e)
  | some (.ok t) => f t

/-- `batch(sourceText, patches)`: parse once (the prebuilt tree is passed
to the stages but their two-parameter signatures ignore it — every stage
re-tokenizes and re-parses its own input text), classify, then apply
replace, insert, delete in that fixed order, skipping empty categories. -/
def batch (sourceText : List Char) (patches : List BPatch) :
    Option (Except String (List Char)) :=
  match tokenize sourceText with
  | .error e => some (.error e)
  | .ok toks =>
    match buildCST toks with
    | .error e => some (.error e)
    | .ok _root =>
      match classify patches with
      | .error e => some (.error e)
      | .ok rid =>
        bindOE
          (bindOE
            (if rid.1 = [] then some (.ok sourceText) else replace sourceText rid.1)
            (fun t1 => if rid.2.1 = [] then some (.ok t1) else insert t1 rid.2.1))
          (fun t2 => if rid.2.2 = [] then some (.ok t2) else remove t2 rid.2.2)

/-- The sequential composition `remove(insert(replace(text, R), I), D)`
that claim C6 compares `batch` against. -/
def seqBatch (t : List Char) (rp : List RPatch) (ip : List IPatch)
    (dp : List DPatch) : Option (Except String (List Char)) :=
  bindOE (bindOE (replace t rp) (fun t1 => insert t1 ip)) (fun t2 => remove t2 dp)

/-! ### Specification-side definitions for claim C3 -/

/-- Span well-formedness of a CST node within a text of length `bound`:
every node's span is nonempty and starts inside the text, recursively for
all children.  The builder only produces well-formed nodes (`parseF_wf`). -/
inductive NodeWF (bound : Nat) : Node → Prop where
  | obj : ∀ {s e props}, s < e → s < bound →
      (∀ pr ∈ props, NodeWF bound pr.1) → (∀ pr ∈ props, NodeWF bound pr.2) →
      NodeWF bound (Node.Object s e props)
  | arr : ∀ {s e elems}, s < e → s < bound →
      (∀ el ∈ elems, NodeWF bound el) → NodeWF bound (Node.Array s e elems)
  | str : ∀ {s e}, s < e → s < bound → NodeWF bound (Node.String s e)
  | num : ∀ {s e}, s < e → s < bound → NodeWF bound (Node.Number s e)
  | boolean : ∀ {s e}, s < e → s < bound → NodeWF bound (Node.Boolean s e)
  | null : ∀ {s e}, s < e → s < bound → NodeWF bound (Node.Null s e)

/-- The invariant established for each kind of `parseF` request. -/
def parseInv (L : Nat) (pos pos2 : Nat) : POut → Prop
  | POut.node n => pos < pos2 ∧ NodeWF L n
  | POut.props props =>
    pos ≤ pos2 ∧ (∀ pr ∈ props, NodeWF L pr.1) ∧ (∀ pr ∈ props, NodeWF L pr.2)
  | POut.elems elems => pos ≤ pos2 ∧ ∀ el ∈ elems, NodeWF L el

/-- Simultaneous substitution — the specification side of claim C3.
Given splices `(s, e, v)` with ascending disjoint spans and a cursor `c`
at or before the first span, emit the text between the cursor and the
span, then the value in place of the span `[s, e)`, and recurse; every
byte outside the replaced spans is preserved. -/
def render (t : List Char) : Nat → List (Nat × Nat × List Char) → List Char
  | c, [] => t.drop c
  | c, (s, e, v) :: rest => (t.take s).drop c ++ v ++ render t e rest

/-- The splice a resolved patch denotes: the node's span and the patch's
literal value text. -/
def spliceOf {β : Type} (value : β → List Char) (np : Node × β) :
    Nat × Nat × List Char :=
  (np.1.start, np.1.stop, value np.2)

/-- Stable sort by ascending node start offset (the order `render`
consumes). -/
def sortAscByStart {β : Type} (l : List (Node × β)) : List (Node × β) :=
  l.insertionSort (fun a b => Node.start a.1 ≤ Node.start b.1)

/-- Ascending, disjoint, in-bounds splices starting at or after cursor
`c`: each span is nonempty, starts inside the text, and begins no
earlier than the previous span's end. -/
def spliceChain (bound : Nat) : Nat → List (Nat × Nat × List Char) → Prop
  | _, [] => True
  | c, x :: rest => c ≤ x.1 ∧ x.1 < x.2.1 ∧ x.1 < bound ∧ spliceChain bound x.2.1 rest

/-! ### Tokenizer invariants -/

theorem wsRun_ge (t : List Char) (p : Nat) : p ≤ wsRun t p :=
  Nat.le_add_right p _

theorem strEnd_ge (t : List Char) (p : Nat) : p ≤ strEnd t p :=
  Nat.le_add_right p _

theorem digitRun_ge (t : List Char) (p : Nat) : p ≤ digitRun t p :=
  Nat.le_add_right p _

theorem alphaRun_ge (t : List Char) (p : Nat) : p ≤ alphaRun t p :=
  Nat.le_add_right p _

theorem lineEnd_ge (t : List Char) (p : Nat) : p ≤ lineEnd t p :=
  Nat.le_add_right p _

theorem blockStop_ge (t : List Char) (p : Nat) : p ≤ blockStop t p :=
  Nat.le_add_right p _

theorem scanWhile_pos (f : Char → Bool) (t : List Char) (p : Nat)
    (h : p < t.length) (hf : f t[p] = true) :
    0 < scanWhile f (t.drop p) := by
  rw [List.drop_eq_getElem_cons h, scanWhile, if_pos hf]
  exact Nat.succ_pos _

theorem wsRun_gt (t : List Char) (p : Nat) (h : p < t.length)
    (hw : isWhitespace t[p] = true) : p < wsRun t p := by
  have := scanWhile_pos isWhitespace t p h hw
  unfold wsRun
  omega

theorem digitRun_gt (t : List Char) (p : Nat) (h : p < t.length)
    (hd : isDigit t[p] = true) : p < digitRun t p := by
  have := scanWhile_pos isDigit t p h hd
  unfold digitRun
  omega

theorem alphaRun_gt (t : List Char) (p : Nat) (h : p < t.length)
    (ha : isAlpha t[p] = true) : p < alphaRun t p := by
  have := scanWhile_pos isAlpha t p h ha
  unfold alphaRun
  omega

theorem numEnd_gt (t : List Char) (p : Nat) (h : p < t.length)
    (hn : isNumberStart t[p] = true) : p < numEnd t p := by
  rw [numEnd]
  have hdot : ∀ q : Nat, q ≤ if charAt t q = some '.' then digitRun t (q + 1) else q := by
    intro q
    split
    · exact Nat.le_trans (Nat.le_succ q) (digitRun_ge t (q + 1))
    · exact Nat.le_refl q
  have hexp : ∀ q : Nat, q ≤
      if charAt t q = some 'e' ∨ charAt t q = some 'E' then
        digitRun t (if charAt t (q + 1) = some '+' ∨ charAt t (q + 1) = some '-'
          then q + 2 else q + 1)
      else q := by
    intro q
    split
    · split
      · exact Nat.le_trans (by omega) (digitRun_ge t (q + 2))
      · exact Nat.le_trans (Nat.le_succ q) (digitRun_ge t (q + 1))
    · exact Nat.le_refl q
  by_cases hminus : charAt t p = some '-'
  · rw [if_pos hminus]
    have h1 : p < digitRun t (p + 1) :=
      Nat.lt_of_lt_of_le (Nat.lt_succ_self p) (digitRun_ge t (p + 1))
    exact Nat.lt_of_lt_of_le (Nat.lt_of_lt_of_le h1 (hdot _)) (hexp _)
  · rw [if_neg hminus]
    have hd : isDigit t[p] = true := by
      have hc : t[p] ≠ '-' := by
        intro hcontra
        refine hminus ?_
        rw [charAt, List.get?_eq_get h]
        exact congrArg some hcontra
      unfold isNumberStart at hn
      unfold isDigit
      cases hb : decide (t[p] = '-') with
      | true => exact absurd (of_decide_eq_true hb) hc
      | false =>
        rw [Bool.or_eq_true] at hn
        rcases hn with hn | hn
        · exact absurd (of_decide_eq_true hn) hc
        · exact hn
    have h1 : p < digitRun t p := digitRun_gt t p h hd
    exact Nat.lt_of_lt_of_le (Nat.lt_of_lt_of_le h1 (hdot _)) (hexp _)

/-- Every successfully produced token starts at the cursor, stops at the new
cursor, and advances the cursor by at least one character. -/
theorem nextToken_ok (t : List Char) (p : Nat) (h : p < t.length) (tok : Tok) (q : Nat)
    (hn : nextToken t p t[p] = .ok (tok, q)) :
    tok.start = p ∧ tok.stop = q ∧ p < q := by
  unfold nextToken at hn
  dsimp only at hn
  split_ifs at hn with h1 h2 h3 h4 h5 h6 h7 h8
  · -- whitespace
    obtain ⟨rfl, rfl⟩ : tok = ⟨"whitespace", p, wsRun t p⟩ ∧ q = wsRun t p := by
      simpa using hn.symm
    exact ⟨rfl, rfl, wsRun_gt t p h h1⟩
  · -- string
    obtain ⟨rfl, rfl⟩ : tok = ⟨"string", p, strEnd t (p + 1)⟩ ∧ q = strEnd t (p + 1) := by
      simpa using hn.symm
    exact ⟨rfl, rfl, Nat.lt_of_lt_of_le (Nat.lt_succ_self p) (strEnd_ge t (p + 1))⟩
  · -- number
    obtain ⟨rfl, rfl⟩ : tok = ⟨"number", p, numEnd t p⟩ ∧ q = numEnd t p := by
      simpa using hn.symm
    exact ⟨rfl, rfl, numEnd_gt t p h h3⟩
  · -- keyword: true/false
    obtain ⟨rfl, rfl⟩ : tok = ⟨"boolean", p, alphaRun t p⟩ ∧ q = alphaRun t p := by
      simpa using hn.symm
    exact ⟨rfl, rfl, alphaRun_gt t p h h4⟩
  · -- keyword: null
    obtain ⟨rfl, rfl⟩ : tok = ⟨"null", p, alphaRun t p⟩ ∧ q = alphaRun t p := by
      simpa using hn.symm
    exact ⟨rfl, rfl, alphaRun_gt t p h h4⟩
  · -- line comment
    obtain ⟨rfl, rfl⟩ : tok = ⟨"comment", p, lineEnd t (p + 2)⟩ ∧ q = lineEnd t (p + 2) := by
      simpa using hn.symm
    exact ⟨rfl, rfl, Nat.lt_of_lt_of_le (by omega) (lineEnd_ge t (p + 2))⟩
  · -- block comment
    obtain ⟨rfl, rfl⟩ : tok = ⟨"comment", p, blockStop t (p + 2) + 2⟩ ∧
        q = blockStop t (p + 2) + 2 := by
      simpa using hn.symm
    refine ⟨rfl, rfl, ?_⟩
    have := blockStop_ge t (p + 2)
    omega
  · -- punctuation
    split at hn
    · obtain ⟨rfl, rfl⟩ : tok = ⟨_, p, p + 1⟩ ∧ q = p + 1 := by
        simpa using hn.symm
      exact ⟨rfl, rfl, Nat.lt_succ_self p⟩
    · exact absurd hn (by simp)

theorem tokLoop_ok (fuel : Nat) (t : List Char) :
    ∀ (p : Nat) (toks : List Tok), tokLoop t fuel p = .ok toks →
    tokensOK t p toks ∧ t.length ≤ endPosOf p toks := by
  induction fuel with
  | zero => intro p toks h; simp [tokLoop] at h
  | succ fuel ih =>
    intro p toks h
    conv at h => lhs; rw [tokLoop]
    split at h
    · rename_i hp
      split at h
      · exact absurd h (by simp)
      · rename_i tok q heq
        cases htl : tokLoop t fuel q with
        | error e => rw [htl] at h; exact absurd h (by simp [Except.map])
        | ok toks' =>
          rw [htl] at h
          obtain rfl : tok :: toks' = toks := by simpa [Except.map] using h
          obtain ⟨hstart, hstop, hlt⟩ := nextToken_ok t p hp tok q heq
          obtain ⟨hok', hend'⟩ := ih q toks' htl
          subst hstop
          exact ⟨⟨hstart, hp, hlt, hok'⟩, hend'⟩
    · rename_i hp
      obtain rfl : ([] : List Tok) = toks := by simpa using h
      exact ⟨trivial, by simpa [endPosOf] using Nat.le_of_not_lt hp⟩

theorem tokensOK_adjacent (t : List Char) :
    ∀ (toks : List Tok) (p : Nat), tokensOK t p toks →
    ∀ i a b, toks.get? i = some a → toks.get? (i + 1) = some b → a.stop = b.start := by
  intro toks
  induction toks with
  | nil => intro p _ i a b ha; simp at ha
  | cons tk rest ih =>
    intro p hok i a b ha hb
    obtain ⟨hstart, _, _, hrest⟩ := hok
    cases i with
    | zero =>
      obtain rfl : tk = a := by simpa using ha
      cases rest with
      | nil => simp at hb
      | cons tk2 r2 =>
        obtain rfl : tk2 = b := by simpa using hb
        exact (hrest.1).symm
    | succ j =>
      exact ih tk.stop hrest j a b (by simpa using ha) (by simpa using hb)

theorem endPosOf_last : ∀ (toks : List Tok) (p : Nat) (last : Tok),
    toks.getLast? = some last → endPosOf p toks = last.stop := by
  intro toks
  induction toks with
  | nil => intro p last h; simp at h
  | cons tk rest ih =>
    intro p last h
    cases rest with
    | nil =>
      obtain rfl : tk = last := by simpa using h
      rfl
    | cons tk2 r2 =>
      exact ih tk.stop last (by simpa using h)

theorem slice_glue (t : List Char) (a b : Nat) (hab : a ≤ b) (ha : a ≤ t.length) :
    (t.take b).drop a ++ t.drop b = t.drop a := by
  conv_rhs => rw [← List.take_append_drop b t]
  rw [List.drop_append_eq_append_drop]
  have hlen : a - (t.take b).length = 0 := by
    simp only [List.length_take]
    omega
  rw [hlen, List.drop_zero]

theorem blockScan_all (l : List Char)
    (h : ∀ i, ¬(l.get? i = some '*' ∧ l.get? (i + 1) = some '/')) :
    blockScan l = l.length := by
  induction l with
  | nil => rfl
  | cons c rest ih =>
    rw [blockScan, if_neg ?_]
    · rw [ih (fun i => by simpa using h (i + 1))]
      rfl
    · intro hc
      refine h 0 ⟨by simpa using hc.1, ?_⟩
      rw [List.get?_cons_succ, List.get?_zero]
      exact hc.2

theorem blockStop_none (t : List Char) (p : Nat) (hp : p ≤ t.length)
    (hno : ∀ q, p ≤ q → ¬(charAt t q = some '*' ∧ charAt t (q + 1) = some '/')) :
    blockStop t p = t.length := by
  rw [blockStop, blockScan_all]
  · rw [List.length_drop]
    omega
  · intro i hc
    refine hno (p + i) (Nat.le_add_right p i) ⟨?_, ?_⟩
    · rw [charAt, ← List.get?_drop t p i]
      exact hc.1
    · rw [charAt]
      show t.get? (p + i + 1) = some '/'
      have : p + i + 1 = p + (i + 1) := by omega
      rw [this, ← List.get?_drop t p (i + 1)]
      exact hc.2

/-- When the tokenizer's main loop reaches an unterminated `/*` (no later
`*/`), it emits one final comment token ending at `input length + 2` and
returns normally. -/
theorem tokLoop_unterminated (t : List Char) (fuel p : Nat)
    (hfuel : 2 ≤ fuel) (hp : p < t.length)
    (hs : charAt t p = some '/') (hst : charAt t (p + 1) = some '*')
    (hno : ∀ q, p + 2 ≤ q → ¬(charAt t q = some '*' ∧ charAt t (q + 1) = some '/')) :
    tokLoop t fuel p = .ok [⟨"comment", p, t.length + 2⟩] := by
  obtain ⟨f, rfl⟩ : ∃ f, fuel = f + 2 := ⟨fuel - 2, by omega⟩
  have hcp : t[p] = '/' := by
    have hs' := hs
    rw [charAt, List.get?_eq_get hp] at hs'
    exact Option.some.inj hs'
  have hp1 : p + 1 < t.length := by
    rcases List.get?_eq_some.mp hst with ⟨hlt, -⟩
    exact hlt
  have hbs : blockStop t (p + 2) = t.length :=
    blockStop_none t (p + 2) (by omega) (fun q hq => hno q hq)
  have hnt : nextToken t p t[p] =
      .ok (⟨"comment", p, t.length + 2⟩, t.length + 2) := by
    rw [hcp]
    unfold nextToken
    rw [if_neg (by decide), if_neg (by decide), if_neg (by decide), if_neg (by decide)]
    rw [if_neg (fun hc => by rw [hst] at hc; exact absurd hc.2 (by simp))]
    rw [if_pos ⟨rfl, hst⟩]
    dsimp only
    rw [hbs]
  show tokLoop t (f + 1 + 1) p = _
  conv_lhs => rw [tokLoop]
  rw [dif_pos hp, hnt]
  show (tokLoop t (f + 1) (t.length + 2)).map
    (List.cons ⟨"comment", p, t.length + 2⟩) = _
  conv_lhs => rw [tokLoop]
  rw [dif_neg (by omega : ¬ t.length + 2 < t.length)]
  rfl

theorem tokensOK_join (t : List Char) :
    ∀ (toks : List Tok) (p : Nat), tokensOK t p toks → t.length ≤ endPosOf p toks →
    (toks.map fun tk => sliceTxt t tk.start tk.stop).flatten = t.drop p := by
  intro toks
  induction toks with
  | nil =>
    intro p _ hend
    simp only [List.map_nil, List.flatten_nil]
    exact (List.drop_eq_nil_of_le (by simpa [endPosOf] using hend)).symm
  | cons tk rest ih =>
    intro p hok hend
    obtain ⟨hstart, hp, hlt, hrest⟩ := hok
    subst hstart
    simp only [List.map_cons, List.flatten_cons]
    rw [ih tk.stop hrest (by simpa [endPosOf] using hend)]
    exact slice_glue t tk.start tk.stop (Nat.le_of_lt hlt) (Nat.le_of_lt hp)

/-! ### Claim C1 -/

/-- **C1** (amended).  For every input text on which `tokenize` completes
without raising, the returned token sequence is contiguous and gap-free
(each token's end offset equals the next token's start offset), the first
token starts at offset 0, the token list is empty only for empty input,
the last token ends *at or beyond* the input length (it can end strictly
beyond it, through the `pos += 2` of an unterminated string escape or
block comment — `C1_counterexample` refutes the original "ends exactly at
the input length"), and concatenating the source slices of all tokens
(slices clamped at the text length, as `String.prototype.slice` clamps)
reproduces the input text exactly. -/
theorem C1_token_coverage (t : List Char) (toks : List Tok)
    (h : tokenize t = .ok toks) :
    (∀ i a b, toks.get? i = some a → toks.get? (i + 1) = some b → a.stop = b.start) ∧
    (∀ tk0 rest, toks = tk0 :: rest → tk0.start = 0) ∧
    (toks = [] → t = []) ∧
    (∀ last, toks.getLast? = some last → t.length ≤ last.stop) ∧
    (toks.map fun tk => sliceTxt t tk.start tk.stop).flatten = t := by
  obtain ⟨hok, hend⟩ := tokLoop_ok (t.length + 1) t 0 toks h
  refine ⟨tokensOK_adjacent t toks 0 hok, ?_, ?_, ?_, ?_⟩
  · intro tk0 rest hcons
    subst hcons
    exact hok.1
  · intro hnil
    subst hnil
    simp only [endPosOf] at hend
    exact List.length_eq_zero.mp (by omega)
  · intro last hlast
    rw [endPosOf_last toks 0 last hlast] at hend
    exact hend
  · rw [tokensOK_join t toks 0 hok hend]
    exact List.drop_zero t

/-- **C1** witness: the theorem applied to the concrete input `{}`. -/
theorem C1_token_coverage_witness :
    tokenize (chars "\x7b\x7d") = .ok [Tok.mk "braceL" 0 1, Tok.mk "braceR" 1 2] ∧
    ((∀ i a b, [Tok.mk "braceL" 0 1, Tok.mk "braceR" 1 2].get? i = some a →
        [Tok.mk "braceL" 0 1, Tok.mk "braceR" 1 2].get? (i + 1) = some b →
        a.stop = b.start) ∧
      (∀ tk0 rest, [Tok.mk "braceL" 0 1, Tok.mk "braceR" 1 2] = tk0 :: rest →
        tk0.start = 0) ∧
      ([Tok.mk "braceL" 0 1, Tok.mk "braceR" 1 2] = ([] : List Tok) → chars "\x7b\x7d" = []) ∧
      (∀ last, [Tok.mk "braceL" 0 1, Tok.mk "braceR" 1 2].getLast? = some last →
        (chars "\x7b\x7d").length ≤ last.stop) ∧
      ([Tok.mk "braceL" 0 1, Tok.mk "braceR" 1 2].map fun tk =>
        sliceTxt (chars "\x7b\x7d") tk.start tk.stop).flatten = chars "\x7b\x7d") :=
  ⟨by rfl, C1_token_coverage (chars "\x7b\x7d") [Tok.mk "braceL" 0 1, Tok.mk "braceR" 1 2] (by rfl)⟩

/-- **C1** counterexample to the original claim: the input `/*` (an
unterminated block comment) tokenizes without raising, but its single
token ends at offset 4, strictly beyond the input length 2 — so the last
token does not end exactly at the input length. -/
theorem C1_counterexample :
    tokenize (chars "/*") = .ok [Tok.mk "comment" 0 4] ∧
    (chars "/*").length = 2 ∧ (4 : Nat) ≠ 2 :=
  ⟨by rfl, by rfl, by decide⟩

/-! ### Claim C10 -/

/-- **C10** (amended).  Whenever the tokenizer's scan loop reaches, without
having raised earlier, a position `p` holding `/*` with no matching `*/`
anywhere at or after `p + 2`, it does not raise: it appends exactly one
final comment token whose end offset is the input length plus 2 and
returns.  In particular (second conjunct) every input text *beginning*
with such an unterminated block-comment opener tokenizes to exactly that
single comment token.  The original claim — which asserted this for every
input merely *containing* an unterminated `/*` — is refuted by
`C10_counterexample`, since the tokenizer can raise before reaching the
opener. -/
theorem C10_unterminated_block_comment :
    (∀ (t : List Char) (fuel p : Nat), 2 ≤ fuel → p < t.length →
      charAt t p = some '/' → charAt t (p + 1) = some '*' →
      (∀ q, p + 2 ≤ q → ¬(charAt t q = some '*' ∧ charAt t (q + 1) = some '/')) →
      tokLoop t fuel p = .ok [Tok.mk "comment" p (t.length + 2)]) ∧
    (∀ t : List Char, charAt t 0 = some '/' → charAt t 1 = some '*' →
      (∀ q, 2 ≤ q → ¬(charAt t q = some '*' ∧ charAt t (q + 1) = some '/')) →
      tokenize t = .ok [Tok.mk "comment" 0 (t.length + 2)]) := by
  refine ⟨tokLoop_unterminated, ?_⟩
  intro t h0 h1 hno
  have hlen : 0 < t.length := by
    rcases List.get?_eq_some.mp h0 with ⟨hlt, -⟩
    exact hlt
  exact tokLoop_unterminated t (t.length + 1) 0 (by omega) hlen h0 h1 hno

/-- **C10** witness: the theorem applied to the concrete input `/*`. -/
theorem C10_witness :
    tokenize (chars "/*") = .ok [Tok.mk "comment" 0 ((chars "/*").length + 2)] := by
  apply C10_unterminated_block_comment.2 (chars "/*") (by rfl) (by rfl)
  intro q hq hpair
  have hnone : charAt (chars "/*") q = none := by
    rw [charAt]
    refine List.get?_len_le ?_
    have : (chars "/*").length = 2 := by rfl
    omega
  rw [hnone] at hpair
  exact absurd hpair.1 (by simp)

/-- **C10** counterexample to the original claim: the input `@/*` contains
a block-comment opener `/*` with no matching `*/`, yet `tokenize` raises
(`Unexpected character`) instead of returning normally, because the lex
error at `@` occurs before the opener is reached. -/
theorem C10_counterexample :
    tokenize (chars "@/*") = .error "Unexpected character: @ at 0" := by
  rfl

/-! ### Claim C7 -/

/-- **C7** (amended).  For every parsed tree, resolving the empty-string
path returns the root node unchanged (an empty step sequence).  A bare
`/` JSON Pointer, however, does *not* denote the root: it parses to a
single empty-string key step (`"/".slice(1).split("/")` is `[""]`), which
resolves to the property whose unescaped key is `""` when one exists and
to not-found otherwise — `C7_counterexample` shows the original claim's
root reading failing on a concrete tree. -/
theorem C7_empty_path_resolves_root :
    (∀ (root : Node) (sourceText : List Char),
      resolvePath root (chars "") sourceText = some (some root)) ∧
    parsePath (chars "/") = some [Step.key []] := by
  exact ⟨fun root sourceText => rfl, rfl⟩

/-- **C7** counterexample to the original claim: on the parsed tree of
`{"a":1}`, the bare `/` pointer resolves to not-found (`null`), not to
the root object. -/
theorem C7_counterexample :
    tokenize (chars "\x7b\"a\":1\x7d") = .ok
      [Tok.mk "braceL" 0 1, Tok.mk "string" 1 4, Tok.mk "colon" 4 5,
        Tok.mk "number" 5 6, Tok.mk "braceR" 6 7] ∧
    buildCST
      [Tok.mk "braceL" 0 1, Tok.mk "string" 1 4, Tok.mk "colon" 4 5,
        Tok.mk "number" 5 6, Tok.mk "braceR" 6 7] =
      .ok (Node.Object 0 7 [(Node.String 1 4, Node.Number 5 6)]) ∧
    resolvePath (Node.Object 0 7 [(Node.String 1 4, Node.Number 5 6)])
      (chars "/") (chars "\x7b\"a\":1\x7d") = some none :=
  ⟨by rfl, by rfl, by rfl⟩

/-! ### Claim C2 -/

/-- **C2** (code-bug exhibit).  Replacing both `a` and `a.b` in
`{"a":{"b":1}}` raises the conflict error before any text is rewritten,
as the claim states — but the raised message is the literal
`Patch conflict at path: undefined`: the source interpolates `node.path`
into the message and CST nodes carry no `path` field, so the error never
identifies the offending path. -/
theorem C2_conflict_message_bug :
    replace (chars "\x7b\"a\":\x7b\"b\":1\x7d\x7d")
      [RPatch.mk (chars "a") (chars "1"), RPatch.mk (chars "a.b") (chars "2")] =
      some (.error "Patch conflict at path: undefined") := by
  rfl

/-! ### Claim C8 -/

theorem resolveObjectProperty_find (props : List (Node × Node)) (k srcText : List Char) :
    resolveObjectProperty props (Step.key k) srcText =
      (props.find? (fun pr => decide (extractString pr.1 srcText = k))).map Prod.snd := by
  induction props with
  | nil => rfl
  | cons pr rest ih =>
    by_cases h : extractString pr.1 srcText = k
    · rw [resolveObjectProperty, if_pos h, List.find?_cons_of_pos _ (by simpa using h)]
      rfl
    · rw [resolveObjectProperty, if_neg h, List.find?_cons_of_neg _ (by simpa using h)]
      exact ih

/-- **C8** (amended).  When resolving a path step against an Object node,
the step key is compared against each property's unescaped key text and
the first property whose unescaped key equals the step key wins,
resolution advancing to its value (the `find?` characterization below);
a non-string step never matches.  Unescaping decodes exactly the escape
sequences `\"`, `\\`, `\/`, `\b`, `\f`, `\n`, `\r`, `\t` to their
literal characters; every *other* escape sequence is replaced by its
escaped character alone — the backslash is dropped, so `\uXXXX` becomes
`uXXXX`, still not decoded as a unicode escape (the original "left as the
two raw characters" is refuted by `C8_counterexample`) — except that a
backslash before a line terminator, like a trailing lone backslash, stays
in place (the JavaScript regex `.` does not match line terminators). -/
theorem C8_key_unescaping :
    (∀ rest, unescapeString ('\\' :: '"' :: rest) = '"' :: unescapeString rest) ∧
    (∀ rest, unescapeString ('\\' :: '\\' :: rest) = '\\' :: unescapeString rest) ∧
    (∀ rest, unescapeString ('\\' :: '/' :: rest) = '/' :: unescapeString rest) ∧
    (∀ rest, unescapeString ('\\' :: 'b' :: rest) = '\x08' :: unescapeString rest) ∧
    (∀ rest, unescapeString ('\\' :: 'f' :: rest) = '\x0C' :: unescapeString rest) ∧
    (∀ rest, unescapeString ('\\' :: 'n' :: rest) = '\n' :: unescapeString rest) ∧
    (∀ rest, unescapeString ('\\' :: 'r' :: rest) = '\r' :: unescapeString rest) ∧
    (∀ rest, unescapeString ('\\' :: 't' :: rest) = '\t' :: unescapeString rest) ∧
    (∀ c rest, isLineTerm c = false →
      c ∉ ['"', '\\', '/', 'b', 'f', 'n', 'r', 't'] →
      unescapeString ('\\' :: c :: rest) = c :: unescapeString rest) ∧
    (∀ c rest, isLineTerm c = true →
      unescapeString ('\\' :: c :: rest) = '\\' :: unescapeString (c :: rest)) ∧
    unescapeString ['\\'] = ['\\'] ∧
    (∀ (props : List (Node × Node)) (k srcText : List Char),
      resolveObjectProperty props (Step.key k) srcText =
        (props.find? (fun pr => decide (extractString pr.1 srcText = k))).map Prod.snd) ∧
    (∀ (props : List (Node × Node)) (srcText : List Char) (i : Nat),
      resolveObjectProperty props (Step.idx i) srcText = none) := by
  refine ⟨fun rest => rfl, fun rest => rfl, fun rest => rfl, fun rest => rfl,
    fun rest => rfl, fun rest => rfl, fun rest => rfl, fun rest => rfl,
    ?_, ?_, rfl, resolveObjectProperty_find, fun props srcText i => by cases props <;> rfl⟩
  · intro c rest hl hni
    simp only [List.mem_cons, List.not_mem_nil, or_false] at hni
    push_neg at hni
    obtain ⟨h1, h2, h3, h4, h5, h6, h7, h8⟩ := hni
    simp only [unescapeString, hl, Bool.false_eq_true, if_false,
      decodeEsc, h1, h2, h3, h4, h5, h6, h7, h8, if_neg]
  · intro c rest hl
    simp only [unescapeString, hl, if_true]

/-- **C8** witness: the ninth conjunct applied at the concrete escape
sequence `\x` (not in the decode table, not a line terminator). -/
theorem C8_key_unescaping_witness :
    unescapeString ['\\', 'x'] = ['x'] := by
  have h := (C8_key_unescaping.2.2.2.2.2.2.2.2.1) 'x' [] (by rfl) (by decide)
  simpa using h

/-- **C8** counterexample to the original claim: the escape `\u0041` is
*not* left as raw characters — `unescapeString` drops the backslash,
yielding `u0041`.  Consequently, on the parsed tree of
`{"\u0041": 1}`, the pointer `/u0041` resolves to the property's value
while `/\u0041` (the two raw characters the claim promises) resolves to
not-found. -/
theorem C8_counterexample :
    unescapeString (chars "\\u0041") = chars "u0041" ∧
    chars "u0041" ≠ chars "\\u0041" ∧
    tokenize (chars "\x7b\"\\u0041\": 1\x7d") = .ok
      [Tok.mk "braceL" 0 1, Tok.mk "string" 1 9, Tok.mk "colon" 9 10,
        Tok.mk "whitespace" 10 11, Tok.mk "number" 11 12, Tok.mk "braceR" 12 13] ∧
    buildCST
      [Tok.mk "braceL" 0 1, Tok.mk "string" 1 9, Tok.mk "colon" 9 10,
        Tok.mk "whitespace" 10 11, Tok.mk "number" 11 12, Tok.mk "braceR" 12 13] =
      .ok (Node.Object 0 13 [(Node.String 1 9, Node.Number 11 12)]) ∧
    resolvePath (Node.Object 0 13 [(Node.String 1 9, Node.Number 11 12)])
      (chars "/u0041") (chars "\x7b\"\\u0041\": 1\x7d") = some (some (Node.Number 11 12)) ∧
    resolvePath (Node.Object 0 13 [(Node.String 1 9, Node.Number 11 12)])
      (chars "/\\u0041") (chars "\x7b\"\\u0041\": 1\x7d") = some none :=
  ⟨by rfl, by decide, by rfl, by rfl, by rfl, by rfl⟩

/-! ### Claim C5 -/

theorem classify_err : ∀ (patches : List BPatch) (p : BPatch),
    patches.find? isBadPatch = some p → classify patches = .error (badMsg p) := by
  intro patches
  induction patches with
  | nil => intro p h; simp at h
  | cons q rest ih =>
    intro p h
    by_cases hq : isBadPatch q = true
    · rw [List.find?_cons_of_pos _ hq] at h
      obtain rfl : q = p := by simpa using h
      rw [classify]
      cases hop : q.operation with
      | none => simp [badMsg, hop]
      | some op =>
        by_cases he : op = ""
        · simp [badMsg, hop, he]
        · by_cases hr : op = "replace"
          · cases hv : q.value with
            | none => simp [badMsg, hop, he, hr, hv]
            | some v =>
              exact absurd hq (by simp [isBadPatch, hop, he, hr, hv])
          · by_cases hd : op = "delete" ∨ op = "remove"
            · exact absurd hq (by simp [isBadPatch, hop, he, hr, hd])
            · by_cases hi : op = "insert"
              · cases hv : q.value with
                | none => simp [badMsg, hop, he, hr, hd, hi, hv]
                | some v =>
                  exact absurd hq (by simp [isBadPatch, hop, he, hr, hd, hi, hv])
              · simp [badMsg, hop, he, hr, hd, hi]
    · rw [List.find?_cons_of_neg _ (by simpa using hq)] at h
      have hrest := ih p h
      rw [classify]
      cases hop : q.operation with
      | none => exact absurd (by simp [isBadPatch, hop]) hq
      | some op =>
        by_cases he : op = ""
        · exact absurd (by simp [isBadPatch, hop, he]) hq
        · by_cases hr : op = "replace"
          · cases hv : q.value with
            | none => exact absurd (by simp [isBadPatch, hop, he, hr, hv]) hq
            | some v => simp [he, hr, hv, hrest, Except.map]
          · by_cases hd : op = "delete" ∨ op = "remove"
            · simp [he, hr, hd, hrest, Except.map]
            · by_cases hi : op = "insert"
              · cases hv : q.value with
                | none => exact absurd (by simp [isBadPatch, hop, he, hr, hd, hi, hv]) hq
                | some v => simp [he, hr, hd, hi, hv, hrest, Except.map]
              · exact absurd (by simp [isBadPatch, hop, he, hr, hd, hi]) hq

/-- **C5**.  For every patch list containing an entry whose operation
field is missing or not one of `replace`/`delete`/`remove`/`insert`, or
a `replace`/`insert` entry lacking a value, the classification loop of
`batch` raises a descriptive error for the first such entry, and on any
source text that lexes and parses, `batch` propagates exactly that error
— classification precedes all three patch stages, so no output text is
produced.  The error message names the offending entry's path (it ends
with `"<path>"`). -/
theorem C5_batch_bad_operation (patches : List BPatch) (p : BPatch)
    (hfind : patches.find? isBadPatch = some p) :
    classify patches = .error (badMsg p) ∧
    (∀ (t : List Char) (toks : List Tok) (root : Node),
      tokenize t = .ok toks → buildCST toks = .ok root →
      batch t patches = some (.error (badMsg p))) ∧
    (∃ pre : String, badMsg p = pre ++ String.mk p.path ++ "\"") := by
  have hcl := classify_err patches p hfind
  refine ⟨hcl, ?_, ?_⟩
  · intro t toks root htk hb
    simp only [batch, htk, hb, hcl]
  · cases hop : p.operation with
    | none =>
      refine ⟨requiredOpMsgPre, ?_⟩
      simp [badMsg, hop, requiredOpMsg]
    | some op =>
      by_cases he : op = ""
      · refine ⟨requiredOpMsgPre, ?_⟩
        simp [badMsg, hop, he, requiredOpMsg]
      · by_cases hr : op = "replace"
        · refine ⟨replaceNeedsValueMsgPre, ?_⟩
          simp [badMsg, hop, he, hr, replaceNeedsValueMsg]
        · by_cases hi : op = "insert"
          · refine ⟨insertNeedsValueMsgPre, ?_⟩
            simp [badMsg, hop, he, hr, hi, insertNeedsValueMsg]
          · refine ⟨invalidOpMsgPre op, ?_⟩
            simp [badMsg, hop, he, hr, hi, invalidOpMsg]

/-- **C5** witness: the theorem applied to a one-entry list whose entry
has no operation field. -/
theorem C5_batch_bad_operation_witness :
    ([BPatch.mk none (chars "a") (some (chars "1")) none none].find? isBadPatch =
      some (BPatch.mk none (chars "a") (some (chars "1")) none none)) ∧
    (classify [BPatch.mk none (chars "a") (some (chars "1")) none none] =
      .error (badMsg (BPatch.mk none (chars "a") (some (chars "1")) none none)) ∧
    (∀ (t : List Char) (toks : List Tok) (root : Node),
      tokenize t = .ok toks → buildCST toks = .ok root →
      batch t [BPatch.mk none (chars "a") (some (chars "1")) none none] =
        some (.error (badMsg (BPatch.mk none (chars "a") (some (chars "1")) none none)))) ∧
    (∃ pre : String,
      badMsg (BPatch.mk none (chars "a") (some (chars "1")) none none) =
        pre ++ String.mk (chars "a") ++ "\"")) :=
  ⟨by rfl, C5_batch_bad_operation _ _ (by rfl)⟩

/-! ### Claims C6 and C9 -/

theorem resolveAll_all_none {β : Type} (root : Node) (t : List Char) (path : β → List Char) :
    ∀ ps : List β, (∀ p ∈ ps, resolvePath root (path p) t = some none) →
    resolveAll root t path ps = some (ps.map (fun p => ((none : Option Node), p))) := by
  intro ps
  induction ps with
  | nil => intro _; rfl
  | cons q rest ih =>
    intro h
    have hq := h q (List.mem_cons_self q rest)
    have hrest := ih (fun p hp => h p (List.mem_cons_of_mem q hp))
    simp only [resolveAll] at hrest ⊢
    rw [List.mapM_cons, hq, hrest]
    rfl

theorem keptNodes_map_none {β : Type} (ps : List β) :
    keptNodes (ps.map (fun p => ((none : Option Node), p))) = [] := by
  induction ps with
  | nil => rfl
  | cons q rest ih =>
    simp only [keptNodes, List.map_cons, List.filterMap_cons] at ih ⊢
    exact ih

theorem replace_all_none (t : List Char) (toks : List Tok) (root : Node)
    (htk : tokenize t = .ok toks) (hb : buildCST toks = .ok root)
    (ps : List RPatch) (h : ∀ p ∈ ps, resolvePath root p.path t = some none) :
    replace t ps = some (.ok t) := by
  simp only [replace, htk, hb, resolveAll_all_none root t RPatch.path ps h,
    keptNodes_map_none, sortDescByStart]
  rfl

theorem insert_all_none (t : List Char) (toks : List Tok) (root : Node)
    (htk : tokenize t = .ok toks) (hb : buildCST toks = .ok root)
    (ps : List IPatch) (h : ∀ p ∈ ps, resolvePath root p.path t = some none) :
    insert t ps = some (.ok t) := by
  simp only [insert, htk, hb, resolveAll_all_none root t IPatch.path ps h,
    keptNodes_map_none, sortDescByStart]
  rfl

theorem remove_all_none (t : List Char) (toks : List Tok) (root : Node)
    (htk : tokenize t = .ok toks) (hb : buildCST toks = .ok root)
    (ps : List DPatch) (h : ∀ p ∈ ps, resolvePath root p.path t = some none) :
    remove t ps = some (.ok t) := by
  simp only [remove, htk, hb, resolveAll_all_none root t DPatch.path ps h,
    keptNodes_map_none, sortDescByStart]
  rfl

/-- **C9**.  For every source text that lexes and parses, `replace`,
`insert` and `remove` applied to an empty patch list return the text
unchanged, and any patch whose path resolves to not-found is silently
dropped, so a call consisting only of such patches also returns the text
unchanged. -/
theorem C9_noop_identity (t : List Char) (toks : List Tok) (root : Node)
    (htk : tokenize t = .ok toks) (hb : buildCST toks = .ok root) :
    replace t [] = some (.ok t) ∧
    insert t [] = some (.ok t) ∧
    remove t [] = some (.ok t) ∧
    (∀ ps : List RPatch, (∀ p ∈ ps, resolvePath root p.path t = some none) →
      replace t ps = some (.ok t)) ∧
    (∀ ps : List IPatch, (∀ p ∈ ps, resolvePath root p.path t = some none) →
      insert t ps = some (.ok t)) ∧
    (∀ ps : List DPatch, (∀ p ∈ ps, resolvePath root p.path t = some none) →
      remove t ps = some (.ok t)) :=
  ⟨replace_all_none t toks root htk hb [] (by simp),
    insert_all_none t toks root htk hb [] (by simp),
    remove_all_none t toks root htk hb [] (by simp),
    fun ps h => replace_all_none t toks root htk hb ps h,
    fun ps h => insert_all_none t toks root htk hb ps h,
    fun ps h => remove_all_none t toks root htk hb ps h⟩

/-- **C9** witness: the theorem applied to the concrete text `{"a":1}`
(together with an instance of the not-found clause at path `zz`,
extracted from the fourth conjunct). -/
theorem C9_noop_identity_witness :
    (tokenize (chars "\x7b\"a\":1\x7d") = .ok
      [Tok.mk "braceL" 0 1, Tok.mk "string" 1 4, Tok.mk "colon" 4 5,
        Tok.mk "number" 5 6, Tok.mk "braceR" 6 7] ∧
     buildCST
      [Tok.mk "braceL" 0 1, Tok.mk "string" 1 4, Tok.mk "colon" 4 5,
        Tok.mk "number" 5 6, Tok.mk "braceR" 6 7] =
      .ok (Node.Object 0 7 [(Node.String 1 4, Node.Number 5 6)])) ∧
    replace (chars "\x7b\"a\":1\x7d") [] = some (.ok (chars "\x7b\"a\":1\x7d")) ∧
    insert (chars "\x7b\"a\":1\x7d") [] = some (.ok (chars "\x7b\"a\":1\x7d")) ∧
    remove (chars "\x7b\"a\":1\x7d") [] = some (.ok (chars "\x7b\"a\":1\x7d")) ∧
    replace (chars "\x7b\"a\":1\x7d") [RPatch.mk (chars "zz") (chars "5")] =
      some (.ok (chars "\x7b\"a\":1\x7d")) := by
  have h := C9_noop_identity (chars "\x7b\"a\":1\x7d")
    [Tok.mk "braceL" 0 1, Tok.mk "string" 1 4, Tok.mk "colon" 4 5,
      Tok.mk "number" 5 6, Tok.mk "braceR" 6 7]
    (Node.Object 0 7 [(Node.String 1 4, Node.Number 5 6)]) (by rfl) (by rfl)
  refine ⟨⟨by rfl, by rfl⟩, h.1, h.2.1, h.2.2.1, ?_⟩
  refine h.2.2.2.1 [RPatch.mk (chars "zz") (chars "5")] ?_
  intro p hp
  obtain rfl : p = RPatch.mk (chars "zz") (chars "5") := by simpa using hp
  rfl

/-- **C6** (amended).  `batch` applies its categories in the fixed order
replace → insert → delete regardless of the input order of entries; when
every category is nonempty its result equals the sequential composition
`remove(insert(replace(text, R), I), D)` (input order preserved within
each category by `classify`), where each stage re-tokenizes and
re-parses the text produced by the earlier stage, so a stale tree is
never resolved against mutated text.  When a category is *empty*,
however, `batch` skips that stage rather than running it as an identity
pass, so it does not re-parse — `C6_counterexample` shows `batch` and
the full composition differing when a replace makes the text unparseable
and the remaining categories are empty. -/
theorem C6_batch_category_order (t : List Char) (patches : List BPatch)
    (rp : List RPatch) (ip : List IPatch) (dp : List DPatch)
    (hcl : classify patches = .ok (rp, ip, dp))
    (hrp : rp ≠ []) (hip : ip ≠ []) (hdp : dp ≠ []) :
    batch t patches = seqBatch t rp ip dp := by
  cases htk : tokenize t with
  | error e =>
    have hr : replace t rp = some (.error e) := by simp only [replace, htk]
    simp only [batch, seqBatch, htk, hr, bindOE]
  | ok toks =>
    cases hb : buildCST toks with
    | error e =>
      have hr : replace t rp = some (.error e) := by simp only [replace, htk, hb]
      simp only [batch, seqBatch, htk, hb, hr, bindOE]
    | ok root =>
      simp only [batch, seqBatch, htk, hb, hcl, if_neg hrp, if_neg hip, if_neg hdp]

/-- **C6** witness: the theorem applied to a three-entry batch
(one entry of each category, given out of order) on a concrete text. -/
theorem C6_batch_category_order_witness :
    classify
      [BPatch.mk (some "delete") (chars "c") none none none,
        BPatch.mk (some "insert") (chars "b") (some (chars "4")) none none,
        BPatch.mk (some "replace") (chars "a") (some (chars "9")) none none] =
      .ok ([RPatch.mk (chars "a") (chars "9")],
        [IPatch.mk (chars "b") none (chars "4") none],
        [DPatch.mk (chars "c")]) ∧
    batch (chars "\x7b\"a\": 1, \"b\": [2], \"c\": 3\x7d")
      [BPatch.mk (some "delete") (chars "c") none none none,
        BPatch.mk (some "insert") (chars "b") (some (chars "4")) none none,
        BPatch.mk (some "replace") (chars "a") (some (chars "9")) none none] =
      seqBatch (chars "\x7b\"a\": 1, \"b\": [2], \"c\": 3\x7d")
        [RPatch.mk (chars "a") (chars "9")]
        [IPatch.mk (chars "b") none (chars "4") none]
        [DPatch.mk (chars "c")] :=
  ⟨by rfl,
    C6_batch_category_order _ _ _ _ _ (by rfl)
      (List.cons_ne_nil _ _) (List.cons_ne_nil _ _) (List.cons_ne_nil _ _)⟩

/-- **C6** counterexample to the original claim: a lone replace patch
whose value `}` makes the text unparseable.  `batch` (insert and delete
categories empty, both stages skipped) returns the mangled text, while
the full sequential composition raises the re-parse error in the insert
stage — so `batch`'s result does not always equal
`remove(insert(replace(text, R), I), D)`. -/
theorem C6_counterexample :
    classify [BPatch.mk (some "replace") (chars "a") (some (chars "\x7d")) none none] =
      .ok ([RPatch.mk (chars "a") (chars "\x7d")], [], []) ∧
    batch (chars "\x7b\"a\": 1\x7d")
      [BPatch.mk (some "replace") (chars "a") (some (chars "\x7d")) none none] =
      some (.ok (chars "\x7b\"a\": \x7d\x7d")) ∧
    seqBatch (chars "\x7b\"a\": 1\x7d") [RPatch.mk (chars "a") (chars "\x7d")] [] [] =
      some (.error "Unexpected token: braceR") :=
  ⟨by rfl, by rfl, by rfl⟩

/-! ### Claim C4 -/

/-- **C4** (amended).  Object-container inserts: `insert` throws when the
patch carries no key **or an empty-string key** (JavaScript falsiness of
`!patch.key`; the original "throws if the patch carries no key" alone is
refuted by `C4_counterexample`), throws when a property with the given
unescaped key already exists, and otherwise splices `"key": value`
immediately after the opening `{` when the object has no properties and
immediately after the last property's value end prefixed with `, `
otherwise.  Array-container inserts: `position` defaults to the element
count; `insert` throws **iff** `position < 0` or `position > length`;
otherwise it splices right after `[` for an empty array, before the
first element suffixed with `, ` at position 0, after the last element's
end prefixed with `, ` at `position = length`, and before the element
currently at `position` suffixed with `, ` in the middle. -/
theorem C4_insert_semantics :
    (∀ (s e : Nat) (props : List (Node × Node)) (patch : IPatch) (cur orig : List Char),
      ((patch.key = none ∨ patch.key = some []) →
        insertIntoNode cur (Node.Object s e props) patch orig =
          .error "Insert into object requires \x27key\x27 property") ∧
      (∀ k, patch.key = some k → k ≠ [] →
        ((∃ pr ∈ props, extractString pr.1 orig = k) →
          insertIntoNode cur (Node.Object s e props) patch orig =
            .error ("Key \"" ++ String.mk k ++ "\" already exists in object")) ∧
        ((∀ pr ∈ props, extractString pr.1 orig ≠ k) →
          (props = [] →
            insertIntoNode cur (Node.Object s e props) patch orig =
              .ok (splice cur (s + 1) (s + 1) (entryText k patch.value))) ∧
          (∀ lastPr, props.getLast? = some lastPr →
            insertIntoNode cur (Node.Object s e props) patch orig =
              .ok (splice cur lastPr.2.stop lastPr.2.stop
                (chars ", " ++ entryText k patch.value)))))) ∧
    (∀ (s e : Nat) (elems : List Node) (patch : IPatch) (cur orig : List Char),
      ((∃ m, insertIntoNode cur (Node.Array s e elems) patch orig = .error m) ↔
        (patch.position.getD (elems.length : Int) < 0 ∨
          (elems.length : Int) < patch.position.getD (elems.length : Int))) ∧
      (elems = [] → patch.position.getD (elems.length : Int) = 0 →
        insertIntoNode cur (Node.Array s e elems) patch orig =
          .ok (splice cur (s + 1) (s + 1) patch.value)) ∧
      (∀ e0 rest, elems = e0 :: rest → patch.position.getD (elems.length : Int) = 0 →
        insertIntoNode cur (Node.Array s e elems) patch orig =
          .ok (splice cur e0.start e0.start (patch.value ++ chars ", "))) ∧
      (elems ≠ [] → patch.position.getD (elems.length : Int) = (elems.length : Int) →
        ∀ lastEl, elems.getLast? = some lastEl →
        insertIntoNode cur (Node.Array s e elems) patch orig =
          .ok (splice cur lastEl.stop lastEl.stop (chars ", " ++ patch.value))) ∧
      (0 < patch.position.getD (elems.length : Int) →
        patch.position.getD (elems.length : Int) < (elems.length : Int) →
        ∀ el, elems.get? (patch.position.getD (elems.length : Int)).toNat = some el →
        insertIntoNode cur (Node.Array s e elems) patch orig =
          .ok (splice cur el.start el.start (patch.value ++ chars ", ")))) := by
  constructor
  · intro s e props patch cur orig
    constructor
    · rintro (hk | hk) <;>
        simp [insertIntoNode, insertObjectProperty, hk]
    · intro k hk hne
      constructor
      · rintro ⟨pr, hpr, hkey⟩
        have hany : props.any (fun pr => decide (extractString pr.1 orig = k)) = true := by
          rw [List.any_eq_true]
          exact ⟨pr, hpr, by simpa using hkey⟩
        simp [insertIntoNode, insertObjectProperty, hk, hne, Node.properties, hany]
      · intro hnodup
        have hany : props.any (fun pr => decide (extractString pr.1 orig = k)) = false := by
          rw [Bool.eq_false_iff]
          intro hcontra
          rw [List.any_eq_true] at hcontra
          obtain ⟨pr, hpr, hkey⟩ := hcontra
          exact hnodup pr hpr (by simpa using hkey)
        constructor
        · rintro rfl
          simp [insertIntoNode, insertObjectProperty, hk, hne, Node.properties,
            Node.start, hany]
        · intro lastPr hlast
          cases hpcons : props with
          | nil => rw [hpcons] at hlast; simp at hlast
          | cons pr rest =>
            rw [hpcons] at hlast hany hnodup
            have hgl : (pr :: rest).getLast (List.cons_ne_nil pr rest) = lastPr := by
              have hq := List.getLast?_eq_getLast (pr :: rest) (List.cons_ne_nil pr rest)
              rw [hq] at hlast
              exact Option.some.inj hlast
            simp [insertIntoNode, insertObjectProperty, hk, hne, Node.properties,
              hany, hgl]
  · intro s e elems patch cur orig
    by_cases hrange : patch.position.getD (elems.length : Int) < 0 ∨
        (elems.length : Int) < patch.position.getD (elems.length : Int)
    · refine ⟨⟨fun _ => hrange, fun _ => ?_⟩, ?_, ?_, ?_, ?_⟩
      · refine ⟨"Invalid position " ++ toString (patch.position.getD (elems.length : Int)) ++
          " for array of length " ++ toString elems.length, ?_⟩
        simp only [insertIntoNode, insertArrayElement, Node.elements]
        rw [if_pos (by exact hrange)]
      · intro hnil hpos
        subst hnil
        rw [hpos] at hrange
        rcases hrange with h | h <;> omega
      · intro e0 rest hcons hpos
        subst hcons
        rw [hpos] at hrange
        rcases hrange with h | h <;> omega
      · intro hne hpos lastEl hlast
        rw [hpos] at hrange
        rcases hrange with h | h <;> omega
      · intro h1 h2 el hget
        rcases hrange with h | h <;> omega
    · push_neg at hrange
      obtain ⟨hge, hle⟩ := hrange
      have hok : ∀ m, insertIntoNode cur (Node.Array s e elems) patch orig ≠ .error m := by
        intro m
        simp only [insertIntoNode, insertArrayElement, Node.elements]
        rw [if_neg (by omega)]
        cases elems with
        | nil => simp
        | cons e0 rest =>
          split_ifs <;> try simp
          split <;> simp
      refine ⟨⟨?_, fun hc => absurd hc (by omega)⟩, ?_, ?_, ?_, ?_⟩
      · rintro ⟨m, hm⟩
        exact absurd hm (hok m)
      · rintro rfl hpos
        simp only [insertIntoNode, insertArrayElement, Node.elements]
        rw [if_neg (by omega)]
        rfl
      · intro e0 rest hcons hpos
        subst hcons
        simp only [insertIntoNode, insertArrayElement, Node.elements,
          List.length_cons, Nat.cast_add, Nat.cast_one] at hpos hge hle ⊢
        rw [if_neg (by omega), if_pos (by omega)]
      · intro hne hpos lastEl hlast
        cases helems : elems with
        | nil => exact absurd helems hne
        | cons e0 rest =>
          subst helems
          have hgl : (e0 :: rest).getLast (List.cons_ne_nil e0 rest) = lastEl := by
            have hq := List.getLast?_eq_getLast (e0 :: rest) (List.cons_ne_nil e0 rest)
            rw [hq] at hlast
            exact Option.some.inj hlast
          simp only [insertIntoNode, insertArrayElement, Node.elements,
            List.length_cons, Nat.cast_add, Nat.cast_one] at hpos hge hle ⊢
          rw [if_neg (by omega), if_neg (by omega), if_pos (by omega), hgl]
      · intro h1 h2 el hget
        cases helems : elems with
        | nil =>
          subst helems
          simp only [List.length_nil, Nat.cast_zero] at h1 h2
          omega
        | cons e0 rest =>
          subst helems
          simp only [insertIntoNode, insertArrayElement, Node.elements,
            List.length_cons, Nat.cast_add, Nat.cast_one] at h1 h2 hge hle hget ⊢
          rw [if_neg (by omega), if_neg (by omega), if_neg (by omega), hget]

/-- **C4** witness: the theorem's array clause applied to a concrete
middle-position insert (`[1, 3]`, position 1). -/
theorem C4_insert_semantics_witness :
    insertIntoNode (chars "[1, 3]") (Node.Array 0 6 [Node.Number 1 2, Node.Number 4 5])
      (IPatch.mk (chars "") none (chars "2") (some 1)) (chars "[1, 3]") =
      .ok (splice (chars "[1, 3]") 4 4 (chars "2" ++ chars ", ")) := by
  have h := (C4_insert_semantics.2 0 6 [Node.Number 1 2, Node.Number 4 5]
    (IPatch.mk (chars "") none (chars "2") (some 1)) (chars "[1, 3]")
    (chars "[1, 3]")).2.2.2.2 (by decide) (by decide) (Node.Number 4 5) (by rfl)
  simpa using h

/-- **C4** counterexample to the original claim: a patch that *does*
carry a key — the empty string — still throws "requires key", because
the source tests JavaScript falsiness (`!patch.key`), not absence. -/
theorem C4_counterexample :
    insert (chars "\x7b\x7d") [IPatch.mk (chars "") (some []) (chars "1") none] =
      some (.error "Insert into object requires \x27key\x27 property") := by
  rfl

/-! ### Claim C3: token order facts and builder well-formedness -/

theorem skipTrivia_ge (toks : List Tok) (p : Nat) : p ≤ skipTrivia toks p :=
  Nat.le_add_right p _

theorem afterMember_ge (toks : List Tok) (p : Nat) : p ≤ afterMember toks p := by
  unfold afterMember
  split
  · split
    · exact Nat.le_trans (Nat.le_succ p) (skipTrivia_ge toks (p + 1))
    · exact Nat.le_refl p
  · exact Nat.le_refl p

theorem tokensOK_get (t : List Char) :
    ∀ (toks : List Tok) (p : Nat), tokensOK t p toks →
    ∀ i a, toks.get? i = some a → a.start < a.stop ∧ a.start < t.length := by
  intro toks
  induction toks with
  | nil => intro p _ i a ha; simp at ha
  | cons tk rest ih =>
    intro p hok i a ha
    obtain ⟨h1, h2, h3, hrest⟩ := hok
    cases i with
    | zero =>
      obtain rfl : tk = a := by simpa using ha
      exact ⟨by omega, by omega⟩
    | succ j => exact ih tk.stop hrest j a (by simpa using ha)

theorem tokensOK_start_ge (t : List Char) :
    ∀ (toks : List Tok) (p : Nat), tokensOK t p toks →
    ∀ i a, toks.get? i = some a → p ≤ a.start := by
  intro toks
  induction toks with
  | nil => intro p _ i a ha; simp at ha
  | cons tk rest ih =>
    intro p hok i a ha
    obtain ⟨h1, h2, h3, hrest⟩ := hok
    cases i with
    | zero =>
      obtain rfl : tk = a := by simpa using ha
      omega
    | succ j =>
      have := ih tk.stop hrest j a (by simpa using ha)
      omega

theorem tokensOK_sorted (t : List Char) :
    ∀ (toks : List Tok) (p : Nat), tokensOK t p toks →
    ∀ i j a b, i < j → toks.get? i = some a → toks.get? j = some b →
    a.stop ≤ b.start := by
  intro toks
  induction toks with
  | nil => intro p _ i j a b _ ha; simp at ha
  | cons tk rest ih =>
    intro p hok i j a b hij ha hb
    obtain ⟨h1, h2, h3, hrest⟩ := hok
    obtain ⟨j0, rfl⟩ : ∃ j0, j = j0 + 1 := ⟨j - 1, by omega⟩
    cases i with
    | zero =>
      obtain rfl : tk = a := by simpa using ha
      exact tokensOK_start_ge t rest _ hrest j0 b (by simpa using hb)
    | succ i0 =>
      exact ih tk.stop hrest i0 j0 a b (by omega) (by simpa using ha) (by simpa using hb)

theorem consume_ok (toks : List Tok) (p : Nat) (ty : String) (tk : Tok) (q : Nat)
    (h : consume toks p ty = .ok (tk, q)) :
    toks.get? p = some tk ∧ q = p + 1 := by
  unfold consume at h
  split at h
  · rename_i tk2 hget
    split_ifs at h with hkind
    obtain ⟨rfl, rfl⟩ : tk = tk2 ∧ q = p + 1 := by simpa using h.symm
    exact ⟨hget, rfl⟩
  · exact absurd h (by simp)

/-- The builder invariant: from a token stream whose tokens have nonempty
spans starting inside the text (`H1`) and are ordered (`H2`), every
successful `parseF` request advances the cursor and returns span
well-formed nodes. -/
theorem parseF_wf (L : Nat) (toks : List Tok)
    (H1 : ∀ i a, toks.get? i = some a → a.start < a.stop ∧ a.start < L)
    (H2 : ∀ i j a b, i < j → toks.get? i = some a → toks.get? j = some b →
      a.stop ≤ b.start) :
    ∀ (fuel : Nat) (tag : PTag) (pos : Nat) (out : POut) (pos2 : Nat),
    parseF fuel tag toks pos = .ok (out, pos2) → parseInv L pos pos2 out := by
  intro fuel
  induction fuel with
  | zero => intro tag pos out pos2 h; simp [parseF] at h
  | succ fuel ih =>
    intro tag pos out pos2 h
    cases tag with
    | val =>
      rw [parseF] at h
      cases hget : toks.get? (skipTrivia toks pos) with
      | none => simp only [hget] at h; exact absurd h (by simp)
      | some tok =>
        simp only [hget] at h
        have hp0 : pos ≤ skipTrivia toks pos := skipTrivia_ge toks pos
        have htok := H1 (skipTrivia toks pos) tok hget
        split_ifs at h with hbl hbrl hstr hnum hbool hnull
        · -- braceL: parseObject inlined
          cases hm : parseF fuel PTag.objMembers toks
              (skipTrivia toks (skipTrivia toks pos + 1)) with
          | error e => simp only [hm] at h; exact absurd h (by simp)
          | ok r =>
            obtain ⟨ro, rp⟩ := r
            simp only [hm] at h
            cases ro with
            | node n => exact absurd h (by simp)
            | elems l => exact absurd h (by simp)
            | props props =>
              cases hc : consume toks rp "braceR" with
              | error e => simp only [hc] at h; exact absurd h (by simp)
              | ok ce =>
                obtain ⟨endTok, p3⟩ := ce
                simp only [hc] at h
                obtain ⟨rfl, rfl⟩ :
                    POut.node (Node.Object tok.start endTok.stop props) = out ∧
                      p3 = pos2 := by simpa using h
                obtain ⟨hq2, hkeys, hvals⟩ := ih PTag.objMembers _ _ _ hm
                obtain ⟨hgetr, rfl⟩ := consume_ok toks rp "braceR" endTok p3 hc
                have hend := H1 rp endTok hgetr
                have hlt : skipTrivia toks pos < rp := by
                  have := skipTrivia_ge toks (skipTrivia toks pos + 1)
                  omega
                have hord := H2 (skipTrivia toks pos) rp tok endTok hlt hget hgetr
                exact ⟨by omega, NodeWF.obj (by omega) (by omega) hkeys hvals⟩
        · -- bracketL: parseArray inlined
          cases hm : parseF fuel PTag.arrElems toks
              (skipTrivia toks (skipTrivia toks pos + 1)) with
          | error e => simp only [hm] at h; exact absurd h (by simp)
          | ok r =>
            obtain ⟨ro, rp⟩ := r
            simp only [hm] at h
            cases ro with
            | node n => exact absurd h (by simp)
            | props l => exact absurd h (by simp)
            | elems elems =>
              cases hc : consume toks rp "bracketR" with
              | error e => simp only [hc] at h; exact absurd h (by simp)
              | ok ce =>
                obtain ⟨endTok, p3⟩ := ce
                simp only [hc] at h
                obtain ⟨rfl, rfl⟩ :
                    POut.node (Node.Array tok.start endTok.stop elems) = out ∧
                      p3 = pos2 := by simpa using h
                obtain ⟨hq2, helems⟩ := ih PTag.arrElems _ _ _ hm
                obtain ⟨hgetr, rfl⟩ := consume_ok toks rp "bracketR" endTok p3 hc
                have hend := H1 rp endTok hgetr
                have hlt : skipTrivia toks pos < rp := by
                  have := skipTrivia_ge toks (skipTrivia toks pos + 1)
                  omega
                have hord := H2 (skipTrivia toks pos) rp tok endTok hlt hget hgetr
                exact ⟨by omega, NodeWF.arr (by omega) (by omega) helems⟩
        · obtain ⟨rfl, rfl⟩ :
              POut.node (Node.String tok.start tok.stop) = out ∧
                skipTrivia toks pos + 1 = pos2 := by simpa using h
          exact ⟨by omega, NodeWF.str (by omega) (by omega)⟩
        · obtain ⟨rfl, rfl⟩ :
              POut.node (Node.Number tok.start tok.stop) = out ∧
                skipTrivia toks pos + 1 = pos2 := by simpa using h
          exact ⟨by omega, NodeWF.num (by omega) (by omega)⟩
        · obtain ⟨rfl, rfl⟩ :
              POut.node (Node.Boolean tok.start tok.stop) = out ∧
                skipTrivia toks pos + 1 = pos2 := by simpa using h
          exact ⟨by omega, NodeWF.boolean (by omega) (by omega)⟩
        · obtain ⟨rfl, rfl⟩ :
              POut.node (Node.Null tok.start tok.stop) = out ∧
                skipTrivia toks pos + 1 = pos2 := by simpa using h
          exact ⟨by omega, NodeWF.null (by omega) (by omega)⟩
    | objMembers =>
      rw [parseF] at h
      cases hget : toks.get? pos with
      | none =>
        simp only [hget] at h
        obtain ⟨rfl, rfl⟩ : POut.props [] = out ∧ pos = pos2 := by simpa using h
        exact ⟨Nat.le_refl pos, by simp, by simp⟩
      | some tok =>
        simp only [hget] at h
        split_ifs at h with hbr
        · obtain ⟨rfl, rfl⟩ : POut.props [] = out ∧ pos = pos2 := by simpa using h
          exact ⟨Nat.le_refl pos, by simp, by simp⟩
        · cases hc1 : consume toks pos "string" with
          | error e => simp only [hc1] at h; exact absurd h (by simp)
          | ok ce1 =>
            obtain ⟨keyTok, p1⟩ := ce1
            simp only [hc1] at h
            cases hc2 : consume toks (skipTrivia toks p1) "colon" with
            | error e => simp only [hc2] at h; exact absurd h (by simp)
            | ok ce2 =>
              obtain ⟨ctok, q2⟩ := ce2
              simp only [hc2] at h
              cases hv : parseF fuel PTag.val toks (skipTrivia toks q2) with
              | error e => simp only [hv] at h; exact absurd h (by simp)
              | ok rv =>
                obtain ⟨vo, p3⟩ := rv
                simp only [hv] at h
                cases vo with
                | props l => exact absurd h (by simp)
                | elems l => exact absurd h (by simp)
                | node valueNode =>
                  cases hm2 : parseF fuel PTag.objMembers toks
                      (afterMember toks (skipTrivia toks p3)) with
                  | error e => simp only [hm2] at h; exact absurd h (by simp)
                  | ok rm =>
                    obtain ⟨mo, p6⟩ := rm
                    simp only [hm2] at h
                    cases mo with
                    | node n => exact absurd h (by simp)
                    | elems l => exact absurd h (by simp)
                    | props props =>
                      obtain ⟨rfl, rfl⟩ :
                          POut.props
                            ((Node.String keyTok.start keyTok.stop, valueNode)
                              :: props) = out ∧ p6 = pos2 := by simpa using h
                      obtain ⟨hgk, hp1⟩ := consume_ok toks pos "string" keyTok p1 hc1
                      obtain ⟨hgc, hq2⟩ :=
                        consume_ok toks (skipTrivia toks p1) "colon" ctok q2 hc2
                      obtain ⟨hv1, hvwf⟩ := ih PTag.val _ _ _ hv
                      obtain ⟨hm1, hmk, hmv⟩ := ih PTag.objMembers _ _ _ hm2
                      have hkey := H1 pos keyTok hgk
                      have b1 := skipTrivia_ge toks p1
                      have b2 := skipTrivia_ge toks q2
                      have b3 := skipTrivia_ge toks p3
                      have b4 := afterMember_ge toks (skipTrivia toks p3)
                      refine ⟨by omega, ?_, ?_⟩
                      · intro pr hpr
                        rcases List.mem_cons.mp hpr with rfl | hpr
                        · exact NodeWF.str (by omega) (by omega)
                        · exact hmk pr hpr
                      · intro pr hpr
                        rcases List.mem_cons.mp hpr with rfl | hpr
                        · exact hvwf
                        · exact hmv pr hpr
    | arrElems =>
      rw [parseF] at h
      cases hget : toks.get? pos with
      | none =>
        simp only [hget] at h
        obtain ⟨rfl, rfl⟩ : POut.elems [] = out ∧ pos = pos2 := by simpa using h
        exact ⟨Nat.le_refl pos, by simp⟩
      | some tok =>
        simp only [hget] at h
        split_ifs at h with hbr
        · obtain ⟨rfl, rfl⟩ : POut.elems [] = out ∧ pos = pos2 := by simpa using h
          exact ⟨Nat.le_refl pos, by simp⟩
        · cases hv : parseF fuel PTag.val toks pos with
          | error e => simp only [hv] at h; exact absurd h (by simp)
          | ok rv =>
            obtain ⟨vo, p3⟩ := rv
            simp only [hv] at h
            cases vo with
            | props l => exact absurd h (by simp)
            | elems l => exact absurd h (by simp)
            | node valueNode =>
              cases hm2 : parseF fuel PTag.arrElems toks
                  (afterMember toks (skipTrivia toks p3)) with
              | error e => simp only [hm2] at h; exact absurd h (by simp)
              | ok rm =>
                obtain ⟨mo, p6⟩ := rm
                simp only [hm2] at h
                cases mo with
                | node n => exact absurd h (by simp)
                | props l => exact absurd h (by simp)
                | elems elems =>
                  obtain ⟨rfl, rfl⟩ :
                      POut.elems (valueNode :: elems) = out ∧ p6 = pos2 := by
                    simpa using h
                  obtain ⟨hv1, hvwf⟩ := ih PTag.val _ _ _ hv
                  obtain ⟨hm1, hmw⟩ := ih PTag.arrElems _ _ _ hm2
                  have b3 := skipTrivia_ge toks p3
                  have b4 := afterMember_ge toks (skipTrivia toks p3)
                  refine ⟨by omega, ?_⟩
                  intro el hel
                  rcases List.mem_cons.mp hel with rfl | hel
                  · exact hvwf
                  · exact hmw el hel

/-- `buildCST` only produces span well-formed trees. -/
theorem buildCST_wf (t : List Char) (toks : List Tok) (root : Node)
    (htk : tokenize t = .ok toks) (hb : buildCST toks = .ok root) :
    NodeWF t.length root := by
  obtain ⟨hok, _⟩ := tokLoop_ok (t.length + 1) t 0 toks htk
  have H1 := tokensOK_get t toks 0 hok
  have H2 := tokensOK_sorted t toks 0 hok
  unfold buildCST at hb
  cases hp : parseF (2 * toks.length + 2) PTag.val toks 0 with
  | error e => rw [hp] at hb; exact absurd hb (by simp)
  | ok r =>
    obtain ⟨ro, rp⟩ := r
    rw [hp] at hb
    cases ro with
    | node n =>
      obtain rfl : n = root := by simpa using hb
      exact (parseF_wf t.length toks H1 H2 _ PTag.val 0 (POut.node n) rp hp).2
    | props l => exact absurd hb (by simp)
    | elems l => exact absurd hb (by simp)

theorem resolveObjectProperty_mem (props : List (Node × Node)) (st : Step)
    (srcText : List Char) (v : Node)
    (h : resolveObjectProperty props st srcText = some v) :
    ∃ pr ∈ props, v = pr.2 := by
  induction props with
  | nil => cases st <;> simp [resolveObjectProperty] at h
  | cons pr rest ih =>
    cases st with
    | key k =>
      rw [resolveObjectProperty] at h
      split_ifs at h with hk
      · exact ⟨pr, List.mem_cons_self pr rest, (Option.some.inj h).symm⟩
      · obtain ⟨pr2, hpr2, hv⟩ := ih h
        exact ⟨pr2, List.mem_cons_of_mem pr hpr2, hv⟩
    | idx i => simp [resolveObjectProperty] at h
    | nan => simp [resolveObjectProperty] at h

theorem resolveArrayElement_mem (elems : List Node) (st : Step) (v : Node)
    (h : resolveArrayElement elems st = some v) : v ∈ elems := by
  cases st with
  | key k => simp [resolveArrayElement] at h
  | idx i => exact List.get?_mem h
  | nan => simp [resolveArrayElement] at h

theorem resolveSteps_wf (L : Nat) :
    ∀ (steps : List Step) (node : Node) (srcText : List Char) (m : Node),
    NodeWF L node → resolveSteps steps node srcText = some m → NodeWF L m := by
  intro steps
  induction steps with
  | nil =>
    intro node src m hwf h
    obtain rfl : node = m := Option.some.inj h
    exact hwf
  | cons st rest ih =>
    intro node src m hwf h
    cases node with
    | Object s e props =>
      rw [resolveSteps] at h
      cases hro : resolveObjectProperty props st src with
      | none => simp only [hro] at h; exact absurd h (by simp)
      | some v =>
        simp only [hro] at h
        obtain ⟨pr, hpr, rfl⟩ := resolveObjectProperty_mem props st src v hro
        cases hwf with
        | obj h1 h2 hk hv2 => exact ih pr.2 src m (hv2 pr hpr) h
    | Array s e elems =>
      rw [resolveSteps] at h
      cases hra : resolveArrayElement elems st with
      | none => simp only [hra] at h; exact absurd h (by simp)
      | some v =>
        simp only [hra] at h
        have hv := resolveArrayElement_mem elems st v hra
        cases hwf with
        | arr h1 h2 hels => exact ih v src m (hels v hv) h
    | String s e => simp [resolveSteps] at h
    | Number s e => simp [resolveSteps] at h
    | Boolean s e => simp [resolveSteps] at h
    | Null s e => simp [resolveSteps] at h

theorem resolvePath_wf (L : Nat) (root : Node) (path srcText : List Char) (m : Node)
    (hwf : NodeWF L root) (h : resolvePath root path srcText = some (some m)) :
    NodeWF L m := by
  unfold resolvePath at h
  cases hp : parsePath path with
  | none => rw [hp] at h; exact absurd h (by simp)
  | some steps =>
    rw [hp] at h
    exact resolveSteps_wf L steps root srcText m hwf (by simpa using h)

theorem NodeWF.span {L : Nat} {n : Node} (h : NodeWF L n) :
    n.start < n.stop ∧ n.start < L := by
  cases h with
  | obj h1 h2 h3 h4 => exact ⟨h1, h2⟩
  | arr h1 h2 h3 => exact ⟨h1, h2⟩
  | str h1 h2 => exact ⟨h1, h2⟩
  | num h1 h2 => exact ⟨h1, h2⟩
  | boolean h1 h2 => exact ⟨h1, h2⟩
  | null h1 h2 => exact ⟨h1, h2⟩

theorem resolveAll_mem {β : Type} (root : Node) (t : List Char) (path : β → List Char) :
    ∀ (ps : List β) (res : List (Option Node × β)),
    resolveAll root t path ps = some res →
    ∀ x ∈ res, resolvePath root (path x.2) t = some x.1 := by
  intro ps
  induction ps with
  | nil =>
    intro res h x hx
    obtain rfl : ([] : List (Option Node × β)) = res := Option.some.inj h
    simp at hx
  | cons q rest ih =>
    intro res h x hx
    simp only [resolveAll, List.mapM_cons] at h
    cases hq : resolvePath root (path q) t with
    | none => rw [hq] at h; simp at h
    | some n =>
      rw [hq] at h
      cases hrest : List.mapM
          (fun p => (resolvePath root (path p) t).map (fun n => (n, p))) rest with
      | none => rw [hrest] at h; simp at h
      | some bs =>
        rw [hrest] at h
        obtain rfl : (n, q) :: bs = res := by simpa using h
        rcases List.mem_cons.mp hx with rfl | hx
        · exact hq
        · exact ih bs (by simpa [resolveAll] using hrest) x hx

theorem keptNodes_mem {β : Type} (res : List (Option Node × β)) (x : Node × β)
    (hx : x ∈ keptNodes res) : (some x.1, x.2) ∈ res := by
  unfold keptNodes at hx
  obtain ⟨y, hy, hxy⟩ := List.mem_filterMap.mp hx
  cases hyo : y.1 with
  | none => rw [hyo] at hxy; simp at hxy
  | some n =>
    rw [hyo] at hxy
    obtain rfl : (n, y.2) = x := by simpa using hxy
    have hyeq : y = (some n, y.2) := by
      rw [← hyo]
    rw [← hyeq]
    exact hy

theorem conflictCheck_ok {β : Type} :
    ∀ (l : List (Node × β)) (le : Nat),
    List.Chain' (fun a b => Node.stop b.1 ≤ Node.start a.1) l →
    (∀ x0 ∈ l.head?, Node.stop x0.1 ≤ le) →
    conflictCheck (some le) l = .ok () := by
  intro l
  induction l with
  | nil => intro le _ _; rfl
  | cons x rest ih =>
    intro le hchain hhead
    obtain ⟨hrel, htail⟩ := List.chain'_cons'.mp hchain
    have hx := hhead x rfl
    rw [conflictCheck, if_neg (by omega)]
    exact ih x.1.start htail hrel

theorem conflictCheck_ok_none {β : Type} (l : List (Node × β))
    (hchain : List.Chain' (fun a b => Node.stop b.1 ≤ Node.start a.1) l) :
    conflictCheck none l = .ok () := by
  cases l with
  | nil => rfl
  | cons x rest =>
    rw [conflictCheck]
    obtain ⟨hrel, htail⟩ := List.chain'_cons'.mp hchain
    exact conflictCheck_ok rest x.1.start htail hrel

theorem take_glue (t : List Char) (c s : Nat) (hcs : c ≤ s) :
    t.take c ++ (t.take s).drop c = t.take s := by
  conv_rhs => rw [← List.take_append_drop c (t.take s)]
  rw [List.take_take, Nat.min_eq_left hcs]

/-- Applying splices in descending-start order (the fold of `replace`)
computes the simultaneous substitution `render`, for any ascending
disjoint in-bounds splice list. -/
theorem foldl_splice_render (t : List Char) :
    ∀ (A : List (Nat × Nat × List Char)) (c : Nat), spliceChain t.length c A →
    A.reverse.foldl (fun acc x => splice acc x.1 x.2.1 x.2.2) t =
      t.take c ++ render t c A := by
  intro A
  induction A with
  | nil =>
    intro c _
    simp only [List.reverse_nil, List.foldl_nil, render]
    exact (List.take_append_drop c t).symm
  | cons x A' ih =>
    obtain ⟨s, e, v⟩ := x
    intro c hchain
    obtain ⟨hcs, hse, hsL, hchain'⟩ := hchain
    dsimp only at hcs hse hsL hchain'
    rw [List.reverse_cons, List.foldl_append, ih e hchain']
    simp only [List.foldl_cons, List.foldl_nil, render, splice]
    by_cases heL : e ≤ t.length
    · have h1 : (t.take e ++ render t e A').take s = t.take s := by
        rw [List.take_append_of_le_length (by rw [List.length_take]; omega),
          List.take_take, Nat.min_eq_left (Nat.le_of_lt hse)]
      have h2 : (t.take e ++ render t e A').drop e = render t e A' := by
        rw [List.drop_append_eq_append_drop,
          List.drop_eq_nil_of_le (by rw [List.length_take]; omega)]
        have hz : e - (t.take e).length = 0 := by rw [List.length_take]; omega
        rw [hz, List.drop_zero, List.nil_append]
      rw [h1, h2]
      conv_lhs => rw [← take_glue t c s hcs]
      simp [List.append_assoc]
    · have hA' : A' = [] := by
        cases hA : A' with
        | nil => rfl
        | cons y ys =>
          rw [hA] at hchain'
          obtain ⟨hey, hy1, hyL, _⟩ := hchain'
          omega
      subst hA'
      simp only [render, List.foldl_nil]
      have hde : t.drop e = [] := List.drop_eq_nil_of_le (by omega)
      have hte : t.take e = t := List.take_of_length_le (by omega)
      simp only [hte, hde, List.append_nil]
      conv_lhs => rw [← take_glue t c s hcs]
      simp [List.append_assoc]

/-- With pairwise distinct starts, the descending sort reversed is the
ascending sort (both are the unique strictly-sorted arrangement). -/
theorem sortDesc_reverse_eq_sortAsc {β : Type} (l : List (Node × β))
    (hnd : l.Pairwise (fun a b => Node.start a.1 ≠ Node.start b.1)) :
    (sortDescByStart l).reverse = sortAscByStart l := by
  haveI : IsAntisymm (Node × β) (fun a b => Node.start a.1 < Node.start b.1) :=
    ⟨fun a b h1 h2 => absurd (Nat.lt_trans h1 h2) (Nat.lt_irrefl _)⟩
  have hsymm : Symmetric (fun a b : Node × β => Node.start a.1 ≠ Node.start b.1) :=
    fun a b hab hba => hab hba.symm
  have permD : List.Perm (sortDescByStart l) l := by
    unfold sortDescByStart; exact List.perm_insertionSort _ l
  have permA : List.Perm (sortAscByStart l) l := by
    unfold sortAscByStart; exact List.perm_insertionSort _ l
  have permDR : List.Perm (sortDescByStart l).reverse l :=
    List.Perm.trans (List.reverse_perm _) permD
  have hndA := hnd.perm permA.symm (fun h => hsymm h)
  have hndR := hnd.perm permDR.symm (fun h => hsymm h)
  have hsD : (sortDescByStart l).Pairwise (fun a b => Node.start b.1 ≤ Node.start a.1) := by
    unfold sortDescByStart
    haveI : IsTotal (Node × β) (fun a b => Node.start b.1 ≤ Node.start a.1) :=
      ⟨fun a b => Nat.le_total _ _⟩
    haveI : IsTrans (Node × β) (fun a b => Node.start b.1 ≤ Node.start a.1) :=
      ⟨fun a b c hab hbc => Nat.le_trans hbc hab⟩
    exact List.sorted_insertionSort _ l
  have hsA : (sortAscByStart l).Pairwise (fun a b => Node.start a.1 ≤ Node.start b.1) := by
    unfold sortAscByStart
    haveI : IsTotal (Node × β) (fun a b => Node.start a.1 ≤ Node.start b.1) :=
      ⟨fun a b => Nat.le_total _ _⟩
    haveI : IsTrans (Node × β) (fun a b => Node.start a.1 ≤ Node.start b.1) :=
      ⟨fun a b c hab hbc => Nat.le_trans hab hbc⟩
    exact List.sorted_insertionSort _ l
  have hltA : (sortAscByStart l).Pairwise (fun a b => Node.start a.1 < Node.start b.1) :=
    (hsA.and hndA).imp (fun hab => Nat.lt_of_le_of_ne hab.1 hab.2)
  have hltR : (sortDescByStart l).reverse.Pairwise
      (fun a b => Node.start a.1 < Node.start b.1) := by
    have hrev : (sortDescByStart l).reverse.Pairwise
        (fun a b => Node.start a.1 ≤ Node.start b.1) :=
      List.pairwise_reverse.mpr hsD
    exact (hrev.and hndR).imp (fun hab => Nat.lt_of_le_of_ne hab.1 hab.2)
  exact List.eq_of_perm_of_sorted (permDR.trans permA.symm) hltR hltA

theorem spliceChain_mk (t : List Char) {β : Type} (value : β → List Char) :
    ∀ (A : List (Node × β)) (c : Nat),
    A.Pairwise (fun a b => Node.start a.1 ≤ Node.start b.1) →
    A.Pairwise (fun a b =>
      Node.stop a.1 ≤ Node.start b.1 ∨ Node.stop b.1 ≤ Node.start a.1) →
    (∀ x ∈ A, Node.start x.1 < Node.stop x.1 ∧ Node.start x.1 < t.length) →
    (∀ x0 ∈ A.head?, c ≤ Node.start x0.1) →
    spliceChain t.length c (A.map (spliceOf value)) := by
  intro A
  induction A with
  | nil => intro c _ _ _ _; trivial
  | cons x A' ih =>
    intro c hsort hdisj hwf hc
    obtain ⟨hsx, hsort'⟩ := List.pairwise_cons.mp hsort
    obtain ⟨hdx, hdisj'⟩ := List.pairwise_cons.mp hdisj
    have hx := hwf x (List.mem_cons_self x A')
    rw [List.map_cons]
    refine ⟨hc x rfl, hx.1, hx.2, ?_⟩
    refine ih x.1.stop hsort' hdisj' (fun y hy => hwf y (List.mem_cons_of_mem x hy)) ?_
    intro y0 hy0
    have hy0m : y0 ∈ A' := List.mem_of_mem_head? hy0
    have hy := hwf y0 (List.mem_cons_of_mem x hy0m)
    rcases hdx y0 hy0m with h | h
    · exact h
    · have := hsx y0 hy0m
      omega

/-- `Number()` coercion through `numberStep`: whitespace-padded,
decimal-point, hexadecimal, signed and empty bracket segments coerce to
array indices exactly as JavaScript coerces them, non-integral and
negative numerals match nothing, and a whitespace-padded index resolves
and splices through `replace`. -/
theorem numberStep_coercions :
    numberStep (chars " 1 ") = Step.idx 1 ∧
    numberStep (chars "1.0") = Step.idx 1 ∧
    numberStep (chars "0x1") = Step.idx 1 ∧
    numberStep (chars "+1") = Step.idx 1 ∧
    numberStep (chars "-0") = Step.idx 0 ∧
    numberStep (chars "") = Step.idx 0 ∧
    numberStep (chars "1.5") = Step.nan ∧
    numberStep (chars "-1") = Step.nan ∧
    numberStep (chars "1e2") = Step.idx 100 ∧
    replace (chars "\x7b\"items\":[1,3]\x7d")
      [RPatch.mk (chars "items[ 1 ]") (chars "9")] =
      some (.ok (chars "\x7b\"items\":[1,9]\x7d")) :=
  ⟨rfl, rfl, rfl, rfl, rfl, rfl, rfl, rfl, rfl, rfl⟩

/-- **C3**: for a source text that lexes and parses and a patch list all of
whose paths resolve to found nodes with pairwise-disjoint spans, `replace`
succeeds and returns the simultaneous substitution of each resolved span by
its patch value (`render` over the ascending-start splice list): every byte
outside the replaced spans is unchanged, and the descending-start fold
never invalidates a pending offset. -/
theorem C3_replace_disjoint (t : List Char) (toks : List Tok) (root : Node)
    (patches : List RPatch) (resolved : List (Option Node × RPatch))
    (htk : tokenize t = .ok toks) (hb : buildCST toks = .ok root)
    (hres : resolveAll root t RPatch.path patches = some resolved)
    (hdisj : (keptNodes resolved).Pairwise (fun a b =>
      Node.stop a.1 ≤ Node.start b.1 ∨ Node.stop b.1 ≤ Node.start a.1)) :
    replace t patches = some (.ok (render t 0
      ((sortAscByStart (keptNodes resolved)).map (spliceOf RPatch.value)))) := by
  have hrootwf : NodeWF t.length root := buildCST_wf t toks root htk hb
  have hwf : ∀ x ∈ keptNodes resolved,
      Node.start x.1 < Node.stop x.1 ∧ Node.start x.1 < t.length := by
    intro x hx
    have hmem := keptNodes_mem resolved x hx
    have hrp := resolveAll_mem root t RPatch.path patches resolved hres
      (some x.1, x.2) hmem
    exact NodeWF.span (resolvePath_wf t.length root (RPatch.path x.2) t x.1 hrootwf hrp)
  have hsymm : Symmetric (fun a b : Node × RPatch =>
      Node.stop a.1 ≤ Node.start b.1 ∨ Node.stop b.1 ≤ Node.start a.1) :=
    fun a b hab => hab.symm
  have permD : List.Perm (sortDescByStart (keptNodes resolved)) (keptNodes resolved) := by
    unfold sortDescByStart; exact List.perm_insertionSort _ _
  have hsD : (sortDescByStart (keptNodes resolved)).Pairwise
      (fun a b => Node.start b.1 ≤ Node.start a.1) := by
    unfold sortDescByStart
    haveI : IsTotal (Node × RPatch) (fun a b => Node.start b.1 ≤ Node.start a.1) :=
      ⟨fun a b => Nat.le_total _ _⟩
    haveI : IsTrans (Node × RPatch) (fun a b => Node.start b.1 ≤ Node.start a.1) :=
      ⟨fun a b c hab hbc => Nat.le_trans hbc hab⟩
    exact List.sorted_insertionSort _ _
  have hdisjD := hdisj.perm permD.symm (fun h => hsymm h)
  have hwfD : ∀ x ∈ sortDescByStart (keptNodes resolved),
      Node.start x.1 < Node.stop x.1 ∧ Node.start x.1 < t.length :=
    fun x hx => hwf x (permD.mem_iff.mp hx)
  have hchain : List.Chain' (fun a b : Node × RPatch => Node.stop b.1 ≤ Node.start a.1)
      (sortDescByStart (keptNodes resolved)) := by
    refine List.Pairwise.chain' ?_
    refine (hsD.and hdisjD).imp_of_mem ?_
    intro a b ha hb2 hab
    rcases hab.2 with h | h
    · have h1 := (hwfD a ha).1
      have h2 := hab.1
      omega
    · exact h
  have hcc : conflictCheck none (sortDescByStart (keptNodes resolved)) = .ok () :=
    conflictCheck_ok_none _ hchain
  have hnd : (keptNodes resolved).Pairwise
      (fun a b => Node.start a.1 ≠ Node.start b.1) := by
    refine hdisj.imp_of_mem ?_
    intro a b ha hb2 hab
    have h1 := (hwf a ha).1
    have h2 := (hwf b hb2).1
    rcases hab with h | h <;> omega
  have hsorteq : (sortDescByStart (keptNodes resolved)).reverse =
      sortAscByStart (keptNodes resolved) :=
    sortDesc_reverse_eq_sortAsc (keptNodes resolved) hnd
  have permA : List.Perm (sortAscByStart (keptNodes resolved)) (keptNodes resolved) := by
    unfold sortAscByStart; exact List.perm_insertionSort _ _
  have hsA : (sortAscByStart (keptNodes resolved)).Pairwise
      (fun a b => Node.start a.1 ≤ Node.start b.1) := by
    unfold sortAscByStart
    haveI : IsTotal (Node × RPatch) (fun a b => Node.start a.1 ≤ Node.start b.1) :=
      ⟨fun a b => Nat.le_total _ _⟩
    haveI : IsTrans (Node × RPatch) (fun a b => Node.start a.1 ≤ Node.start b.1) :=
      ⟨fun a b c hab hbc => Nat.le_trans hab hbc⟩
    exact List.sorted_insertionSort _ _
  have hdisjA := hdisj.perm permA.symm (fun h => hsymm h)
  have hwfA : ∀ x ∈ sortAscByStart (keptNodes resolved),
      Node.start x.1 < Node.stop x.1 ∧ Node.start x.1 < t.length :=
    fun x hx => hwf x (permA.mem_iff.mp hx)
  have hschain : spliceChain t.length 0
      ((sortAscByStart (keptNodes resolved)).map (spliceOf RPatch.value)) :=
    spliceChain_mk t RPatch.value (sortAscByStart (keptNodes resolved)) 0
      hsA hdisjA hwfA (fun x0 _ => Nat.zero_le _)
  have hrev : (sortAscByStart (keptNodes resolved)).reverse =
      sortDescByStart (keptNodes resolved) := by
    rw [← hsorteq, List.reverse_reverse]
  have hfold := foldl_splice_render t
    ((sortAscByStart (keptNodes resolved)).map (spliceOf RPatch.value)) 0 hschain
  rw [← List.map_reverse, hrev, List.foldl_map] at hfold
  simp only [List.take_zero, List.nil_append] at hfold
  simp only [replace, htk, hb, hres, hcc]
  exact congrArg (fun z => some (Except.ok z)) hfold

/-- **C3** witness: the theorem applied to the source `{"a": 1, "b": 2}`
and the patch list `[a -> 9, b -> 8]`; the rendered substitution evaluates
to `{"a": 9, "b": 8}`. -/
theorem C3_replace_disjoint_witness :
    tokenize (chars "\x7b\"a\": 1, \"b\": 2\x7d") = .ok
      [Tok.mk "braceL" 0 1, Tok.mk "string" 1 4, Tok.mk "colon" 4 5,
        Tok.mk "whitespace" 5 6, Tok.mk "number" 6 7, Tok.mk "comma" 7 8,
        Tok.mk "whitespace" 8 9, Tok.mk "string" 9 12, Tok.mk "colon" 12 13,
        Tok.mk "whitespace" 13 14, Tok.mk "number" 14 15, Tok.mk "braceR" 15 16] ∧
    buildCST
      [Tok.mk "braceL" 0 1, Tok.mk "string" 1 4, Tok.mk "colon" 4 5,
        Tok.mk "whitespace" 5 6, Tok.mk "number" 6 7, Tok.mk "comma" 7 8,
        Tok.mk "whitespace" 8 9, Tok.mk "string" 9 12, Tok.mk "colon" 12 13,
        Tok.mk "whitespace" 13 14, Tok.mk "number" 14 15, Tok.mk "braceR" 15 16] =
      .ok (Node.Object 0 16 [(Node.String 1 4, Node.Number 6 7),
        (Node.String 9 12, Node.Number 14 15)]) ∧
    resolveAll
      (Node.Object 0 16 [(Node.String 1 4, Node.Number 6 7),
        (Node.String 9 12, Node.Number 14 15)])
      (chars "\x7b\"a\": 1, \"b\": 2\x7d") RPatch.path
      [RPatch.mk (chars "a") (chars "9"), RPatch.mk (chars "b") (chars "8")] =
      some [(some (Node.Number 6 7), RPatch.mk (chars "a") (chars "9")),
        (some (Node.Number 14 15), RPatch.mk (chars "b") (chars "8"))] ∧
    replace (chars "\x7b\"a\": 1, \"b\": 2\x7d")
      [RPatch.mk (chars "a") (chars "9"), RPatch.mk (chars "b") (chars "8")] =
      some (.ok (chars "\x7b\"a\": 9, \"b\": 8\x7d")) := by
  refine ⟨by rfl, by rfl, by rfl, ?_⟩
  have h := C3_replace_disjoint (chars "\x7b\"a\": 1, \"b\": 2\x7d")
    [Tok.mk "braceL" 0 1, Tok.mk "string" 1 4, Tok.mk "colon" 4 5,
      Tok.mk "whitespace" 5 6, Tok.mk "number" 6 7, Tok.mk "comma" 7 8,
      Tok.mk "whitespace" 8 9, Tok.mk "string" 9 12, Tok.mk "colon" 12 13,
      Tok.mk "whitespace" 13 14, Tok.mk "number" 14 15, Tok.mk "braceR" 15 16]
    (Node.Object 0 16 [(Node.String 1 4, Node.Number 6 7),
      (Node.String 9 12, Node.Number 14 15)])
    [RPatch.mk (chars "a") (chars "9"), RPatch.mk (chars "b") (chars "8")]
    [(some (Node.Number 6 7), RPatch.mk (chars "a") (chars "9")),
      (some (Node.Number 14 15), RPatch.mk (chars "b") (chars "8"))]
    (by rfl) (by rfl) (by rfl) (by decide)
  rw [h]
  rfl

end JsonCST
